import Mathlib

/-!
# Verification of the `rags` chunking and ingestion pipeline

This file gives a shallow embedding of the chunking subsystem of the `rags`
repository (`rags/chunks/abstract_splitter.py`,
`rags/chunks/string_splitters/bytes_text_splitter.py`,
`rags/chunks/string_splitters/token_text_splitter.py`,
`rags/chunks/pdf_chunk_splitter/pdf_splitter.py`,
`rags/chunks/md_chunck_splitter/langchain_md_splitter.py`,
`rags/chunks/chunks_splitter_factory.py`, `rags/rag_driver.py`,
`rags/global_settings.py`) and proves properties of it.

Modelling conventions:
* A Python `str` is modelled by the list of bytes of its UTF-8 encoding
  (`List Nat`), which is well formed (`ValidUtf8`).  `len(s.encode("utf-8"))`
  is then just `List.length`.
* `bytes.decode("utf-8", errors="replace")` followed by re-encoding is the
  byte-level transformation `pyDecodeReplace` below: well-formed sequences
  pass through, each undecodable byte run is replaced following CPython's
  rules (one U+FFFD per stray byte, one U+FFFD for a truncated trailing
  sequence), and U+FFFD re-encodes to the three bytes EF BF BD.
  `errors="ignore"` is `pyDecodeIgnore`, identical except that invalid input
  produces no output bytes.
  (CPython additionally rejects overlong forms and surrogates; those byte
  patterns never occur in the inputs the program feeds to the decoder —
  slices of well-formed UTF-8 — on which both decoders agree with CPython.)
* Python dicts holding chunk metadata are association lists
  (`Meta`); `dict[k] = v` is `Meta.set`.  Reference semantics (aliasing /
  `deepcopy`) is modelled separately with an explicit heap of metadata maps
  for the aliasing property (claim about sibling isolation).
* The tiktoken tokenizer is abstract: a `Tokenizer` maps a byte string to
  the list of the byte strings of its tokens (tokens are non-empty and
  concatenate back to the input — true of any byte-level BPE).
  `encoding.decode(ids)` concatenates the token byte strings and decodes
  with `errors="replace"`, i.e. `pyDecodeReplace` of the flattened window.
-/

/-! ## Metadata maps (Python dicts of the chunk metadata) -/

/-- A metadata value: the program stores strings (`source`, `type`), numbers
(`num_tokens`, `num_bytes`, `chunk_num`) and chunk contents (under
`content`, modelled as UTF-8 bytes). -/
inductive MetaVal where
  | str (s : String)
  | nat (n : Nat)
  | bytes (b : List Nat)
deriving DecidableEq, Repr

/-- A Python dict with string keys, as used for chunk metadata. -/
abbrev Meta := List (String × MetaVal)

/-- Remove every binding of `k`. -/
def Meta.erase : Meta → String → Meta
  | [], _ => []
  | p :: rest, k => if p.1 = k then Meta.erase rest k else p :: Meta.erase rest k

/-- `m[k] = v` on a dict: replace any existing binding of `k`. -/
def Meta.set (m : Meta) (k : String) (v : MetaVal) : Meta :=
  (k, v) :: m.erase k

/-- `m.get(k)`: the current binding of `k`, if any. -/
def Meta.get : Meta → String → Option MetaVal
  | [], _ => none
  | p :: rest, k => if p.1 = k then some p.2 else Meta.get rest k

/-- Read a numeric metadata value (0 if absent or non-numeric). -/
def Meta.getNat (m : Meta) (k : String) : Nat :=
  match m.get k with
  | some (MetaVal.nat n) => n
  | _ => 0

theorem Meta.get_set_same (m : Meta) (k : String) (v : MetaVal) :
    (m.set k v).get k = some v := by
  simp [Meta.set, Meta.get]

theorem Meta.get_erase_ne (m : Meta) (k k' : String) (h : k' ≠ k) :
    Meta.get (m.erase k) k' = m.get k' := by
  have hk : ¬ k = k' := fun h' => h h'.symm
  induction m with
  | nil => rfl
  | cons p rest ih =>
    by_cases hp : p.1 = k
    · have hp' : ¬ p.1 = k' := by rw [hp]; exact hk
      simp [Meta.erase, Meta.get, hp, hp', hk, ih]
    · by_cases hq : p.1 = k' <;> simp [Meta.erase, Meta.get, hp, hq, h, hk, ih]

theorem Meta.get_set_ne (m : Meta) (k k' : String) (v : MetaVal) (h : k' ≠ k) :
    (m.set k v).get k' = m.get k' := by
  have hk : ¬ k = k' := fun h' => h h'.symm
  simp only [Meta.set, Meta.get, hk, if_false]
  exact Meta.get_erase_ne m k k' h

theorem Meta.getNat_set_same (m : Meta) (k : String) (n : Nat) :
    (m.set k (MetaVal.nat n)).getNat k = n := by
  simp [Meta.getNat, Meta.get_set_same]

theorem Meta.getNat_set_ne (m : Meta) (k k' : String) (v : MetaVal) (h : k' ≠ k) :
    (m.set k v).getNat k' = m.getNat k' := by
  simp [Meta.getNat, Meta.get_set_ne _ _ _ _ h]

/-! ## UTF-8 at the byte level

`isCont b`: `b` is a continuation byte `0x80..0xBF`.  `seqLen b` is the
length of the sequence announced by a lead byte `b` (0 when `b` cannot
lead a sequence). -/

def isCont (b : Nat) : Bool := 0x80 ≤ b ∧ b ≤ 0xBF

def seqLen (b : Nat) : Nat :=
  if b ≤ 0x7F then 1
  else if 0xC2 ≤ b ∧ b ≤ 0xDF then 2
  else if 0xE0 ≤ b ∧ b ≤ 0xEF then 3
  else if 0xF0 ≤ b ∧ b ≤ 0xF4 then 4
  else 0

/-- The UTF-8 encoding of U+FFFD REPLACEMENT CHARACTER. -/
def FFFD : List Nat := [0xEF, 0xBF, 0xBD]

/-- A single well-formed UTF-8 sequence (lead byte plus its continuation
bytes). -/
inductive ValidSeq : List Nat → Prop where
  | one  {b : Nat} : b ≤ 0x7F → ValidSeq [b]
  | two  {b c1 : Nat} : 0xC2 ≤ b → b ≤ 0xDF → isCont c1 → ValidSeq [b, c1]
  | three {b c1 c2 : Nat} : 0xE0 ≤ b → b ≤ 0xEF → isCont c1 → isCont c2 →
      ValidSeq [b, c1, c2]
  | four {b c1 c2 c3 : Nat} : 0xF0 ≤ b → b ≤ 0xF4 → isCont c1 → isCont c2 →
      isCont c3 → ValidSeq [b, c1, c2, c3]

/-- A well-formed UTF-8 byte string: a concatenation of well-formed
sequences.  This is the byte-level image of a Python `str`. -/
inductive ValidUtf8 : List Nat → Prop where
  | nil : ValidUtf8 []
  | cons {s l : List Nat} : ValidSeq s → ValidUtf8 l → ValidUtf8 (s ++ l)

/-- `bytes.decode("utf-8", errors="replace")` composed with re-encoding to
UTF-8, expressed directly on bytes.  At each position: a well-formed
sequence is copied; otherwise the maximal well-formed prefix of a sequence
is consumed and replaced by U+FFFD (a lone stray or invalid byte consumes
just itself). -/
def pyDecodeReplace : List Nat → List Nat
  | [] => []
  | b :: rest =>
    let n := seqLen b
    if n = 0 then FFFD ++ pyDecodeReplace rest
    else
      let conts := (rest.takeWhile (fun c => isCont c)).take (n - 1)
      if conts.length = n - 1 then (b :: conts) ++ pyDecodeReplace (rest.drop (n - 1))
      else FFFD ++ pyDecodeReplace (rest.drop conts.length)
termination_by l => l.length
decreasing_by
  all_goals simp only [List.length_cons, List.length_drop]; omega

/-- `bytes.decode("utf-8", errors="ignore")` composed with re-encoding:
same scan as `pyDecodeReplace` but undecodable input is dropped. -/
def pyDecodeIgnore : List Nat → List Nat
  | [] => []
  | b :: rest =>
    let n := seqLen b
    if n = 0 then pyDecodeIgnore rest
    else
      let conts := (rest.takeWhile (fun c => isCont c)).take (n - 1)
      if conts.length = n - 1 then (b :: conts) ++ pyDecodeIgnore (rest.drop (n - 1))
      else pyDecodeIgnore (rest.drop conts.length)
termination_by l => l.length
decreasing_by
  all_goals simp only [List.length_cons, List.length_drop]; omega

/-! ### Computation rules for the decoders -/

theorem isCont_iff {b : Nat} : isCont b = true ↔ 0x80 ≤ b ∧ b ≤ 0xBF := by
  simp [isCont]

theorem seqLen_cont {b : Nat} (h : isCont b) : seqLen b = 0 := by
  rw [isCont_iff] at h
  simp only [seqLen]
  split_ifs <;> omega

theorem seqLen_ascii {b : Nat} (h : b ≤ 0x7F) : seqLen b = 1 := by
  simp [seqLen, h]

theorem seqLen_two {b : Nat} (h1 : 0xC2 ≤ b) (h2 : b ≤ 0xDF) : seqLen b = 2 := by
  simp only [seqLen]
  split_ifs <;> omega

theorem seqLen_three {b : Nat} (h1 : 0xE0 ≤ b) (h2 : b ≤ 0xEF) : seqLen b = 3 := by
  simp only [seqLen]
  split_ifs <;> omega

theorem seqLen_four {b : Nat} (h1 : 0xF0 ≤ b) (h2 : b ≤ 0xF4) : seqLen b = 4 := by
  simp only [seqLen]
  split_ifs <;> omega

theorem pyDecodeReplace_cont (b : Nat) (rest : List Nat) (h : isCont b) :
    pyDecodeReplace (b :: rest) = FFFD ++ pyDecodeReplace rest := by
  rw [pyDecodeReplace]
  simp [seqLen_cont h]

theorem pyDecodeReplace_validSeq {s : List Nat} (hs : ValidSeq s) (rest : List Nat) :
    pyDecodeReplace (s ++ rest) = s ++ pyDecodeReplace rest := by
  cases hs with
  | one h =>
    rw [List.cons_append, List.nil_append, pyDecodeReplace]
    simp [seqLen_ascii h]
  | two h1 h2 hc =>
    rw [List.cons_append, List.cons_append, List.nil_append, pyDecodeReplace]
    simp [seqLen_two h1 h2, List.takeWhile_cons, hc]
  | three h1 h2 hc1 hc2 =>
    rw [List.cons_append, List.cons_append, List.cons_append, List.nil_append,
      pyDecodeReplace]
    simp [seqLen_three h1 h2, List.takeWhile_cons, hc1, hc2]
  | four h1 h2 hc1 hc2 hc3 =>
    rw [List.cons_append, List.cons_append, List.cons_append, List.cons_append,
      List.nil_append, pyDecodeReplace]
    simp [seqLen_four h1 h2, List.takeWhile_cons, hc1, hc2, hc3]

theorem pyDecodeReplace_valid_append {v : List Nat} (hv : ValidUtf8 v) (rest : List Nat) :
    pyDecodeReplace (v ++ rest) = v ++ pyDecodeReplace rest := by
  induction hv with
  | nil => simp
  | cons hs _ ih =>
    rename_i s l
    rw [List.append_assoc, pyDecodeReplace_validSeq hs, ih, List.append_assoc]

theorem pyDecodeReplace_nil : pyDecodeReplace [] = [] := by
  rw [pyDecodeReplace]

theorem pyDecodeReplace_valid {v : List Nat} (hv : ValidUtf8 v) :
    pyDecodeReplace v = v := by
  have := pyDecodeReplace_valid_append hv []
  simpa [pyDecodeReplace_nil] using this

/-! ### Structure of slices of well-formed UTF-8 -/

theorem validSeq_length {s : List Nat} (hs : ValidSeq s) :
    1 ≤ s.length ∧ s.length ≤ 4 := by
  cases hs <;> simp

theorem validSeq_tail_conts {s : List Nat} (hs : ValidSeq s) :
    ∀ b ∈ s.tail, isCont b = true := by
  cases hs with
  | one h => simp
  | two h1 h2 hc => intro b hb; simp at hb; rw [hb]; exact hc
  | three h1 h2 hc1 hc2 =>
    intro b hb; simp at hb
    rcases hb with hb | hb <;> rw [hb] <;> assumption
  | four h1 h2 hc1 hc2 hc3 =>
    intro b hb; simp at hb
    rcases hb with hb | hb | hb <;> rw [hb] <;> assumption

theorem fffd_validSeq : ValidSeq FFFD := by
  refine ValidSeq.three (by norm_num) (by norm_num) ?_ ?_ <;> simp [isCont]

theorem validUtf8_append {a b : List Nat} (ha : ValidUtf8 a) (hb : ValidUtf8 b) :
    ValidUtf8 (a ++ b) := by
  induction ha with
  | nil => simpa using hb
  | cons hs _ ih => rw [List.append_assoc]; exact ValidUtf8.cons hs ih

theorem validUtf8_FFFD : ValidUtf8 FFFD := by
  have := ValidUtf8.cons fffd_validSeq ValidUtf8.nil
  simpa using this

/-- `p` is a (possibly empty) strict prefix of a single well-formed UTF-8
sequence: the shape of the truncated tail of a byte slice. -/
def PartSeq (p : List Nat) : Prop :=
  p = [] ∨ ∃ s t, ValidSeq s ∧ p ++ t = s ∧ t ≠ []

/-- Decoding a strict, non-empty prefix of a well-formed sequence yields a
single replacement character. -/
theorem pyDecodeReplace_partial {p : List Nat} (hp : PartSeq p) :
    (pyDecodeReplace p = [] ∧ p = []) ∨
      (pyDecodeReplace p = FFFD ∧ 1 ≤ p.length ∧ p.length ≤ 3) := by
  rcases hp with rfl | ⟨s, t, hs, heq, hne⟩
  · exact Or.inl ⟨pyDecodeReplace_nil, rfl⟩
  cases hs with
  | one h =>
    left
    rcases p with _ | ⟨x, p'⟩
    · exact ⟨pyDecodeReplace_nil, rfl⟩
    · exfalso
      simp only [List.cons_append, List.cons.injEq] at heq
      exact hne (List.append_eq_nil.mp heq.2).2
  | two h1 h2 hc =>
    rcases p with _ | ⟨x, p'⟩
    · exact Or.inl ⟨pyDecodeReplace_nil, rfl⟩
    right
    simp only [List.cons_append, List.cons.injEq] at heq
    obtain ⟨rfl, heq2⟩ := heq
    rcases p' with _ | ⟨y, p''⟩
    · refine ⟨?_, by simp, by simp⟩
      rw [pyDecodeReplace]
      simp [seqLen_two h1 h2, pyDecodeReplace_nil]
    · exfalso
      simp only [List.cons_append, List.cons.injEq] at heq2
      exact hne (List.append_eq_nil.mp heq2.2).2
  | three h1 h2 hc1 hc2 =>
    rcases p with _ | ⟨x, p'⟩
    · exact Or.inl ⟨pyDecodeReplace_nil, rfl⟩
    right
    simp only [List.cons_append, List.cons.injEq] at heq
    obtain ⟨rfl, heq2⟩ := heq
    rcases p' with _ | ⟨y, p''⟩
    · refine ⟨?_, by simp, by simp⟩
      rw [pyDecodeReplace]
      simp [seqLen_three h1 h2, pyDecodeReplace_nil]
    · simp only [List.cons_append, List.cons.injEq] at heq2
      obtain ⟨rfl, heq3⟩ := heq2
      rcases p'' with _ | ⟨z, p'''⟩
      · refine ⟨?_, by simp, by simp⟩
        rw [pyDecodeReplace]
        simp [seqLen_three h1 h2, List.takeWhile_cons, hc1, pyDecodeReplace_nil]
      · exfalso
        simp only [List.cons_append, List.cons.injEq] at heq3
        exact hne (List.append_eq_nil.mp heq3.2).2
  | four h1 h2 hc1 hc2 hc3 =>
    rcases p with _ | ⟨x, p'⟩
    · exact Or.inl ⟨pyDecodeReplace_nil, rfl⟩
    right
    simp only [List.cons_append, List.cons.injEq] at heq
    obtain ⟨rfl, heq2⟩ := heq
    rcases p' with _ | ⟨y, p''⟩
    · refine ⟨?_, by simp, by simp⟩
      rw [pyDecodeReplace]
      simp [seqLen_four h1 h2, pyDecodeReplace_nil]
    · simp only [List.cons_append, List.cons.injEq] at heq2
      obtain ⟨rfl, heq3⟩ := heq2
      rcases p'' with _ | ⟨z, p'''⟩
      · refine ⟨?_, by simp, by simp⟩
        rw [pyDecodeReplace]
        simp [seqLen_four h1 h2, List.takeWhile_cons, hc1, pyDecodeReplace_nil]
      · simp only [List.cons_append, List.cons.injEq] at heq3
        obtain ⟨rfl, heq4⟩ := heq3
        rcases p''' with _ | ⟨q, p4⟩
        · refine ⟨?_, by simp, by simp⟩
          rw [pyDecodeReplace]
          simp [seqLen_four h1 h2, List.takeWhile_cons, hc1, hc2, pyDecodeReplace_nil]
        · exfalso
          simp only [List.cons_append, List.cons.injEq] at heq4
          exact hne (List.append_eq_nil.mp heq4.2).2

/-- Decoding a run of stray continuation bytes yields one replacement
character per byte, independently of what follows. -/
theorem pyDecodeReplace_conts {u : List Nat} (rest : List Nat)
    (hu : ∀ b ∈ u, isCont b = true) :
    ∃ r, pyDecodeReplace (u ++ rest) = r ++ pyDecodeReplace rest ∧
      r.length = 3 * u.length ∧ ValidUtf8 r := by
  induction u with
  | nil => exact ⟨[], by simp, by simp, ValidUtf8.nil⟩
  | cons b u' ih =>
    obtain ⟨r', hr', hl', hv'⟩ := ih (fun x hx => hu x (List.mem_cons_of_mem b hx))
    refine ⟨FFFD ++ r', ?_, by simp [FFFD, hl']; ring, validUtf8_append validUtf8_FFFD hv'⟩
    rw [List.cons_append, pyDecodeReplace_cont b (u' ++ rest) (hu b (List.mem_cons_self b u'))]
    rw [hr', List.append_assoc]

/-- Every prefix of a well-formed UTF-8 string is a well-formed string
followed by a strict prefix of one sequence. -/
theorem validUtf8_prefix_decomp {c : List Nat} (hc : ValidUtf8 c) :
    ∀ w t : List Nat, w ++ t = c →
      ∃ v p, w = v ++ p ∧ ValidUtf8 v ∧ PartSeq p := by
  induction hc with
  | nil =>
    intro w t h
    have hw : w = [] := (List.append_eq_nil.mp h).1
    exact ⟨[], [], by simp [hw], ValidUtf8.nil, Or.inl rfl⟩
  | cons hs hl ih =>
    rename_i s l
    intro w t h
    rcases List.append_eq_append_iff.mp h with ⟨a', ha1, ha2⟩ | ⟨c', hc1, hc2⟩
    · rcases a' with _ | ⟨x, a''⟩
      · have hws : w = s := by simpa using ha1.symm
        have hvs : ValidUtf8 s := by
          have : ValidUtf8 (s ++ []) := ValidUtf8.cons hs ValidUtf8.nil
          simpa using this
        exact ⟨s, [], by simp [hws], hvs, Or.inl rfl⟩
      · exact ⟨[], w, by simp, ValidUtf8.nil,
          Or.inr ⟨s, x :: a'', hs, ha1.symm, by simp⟩⟩
    · obtain ⟨v', p', hw', hv', hp'⟩ := ih c' t hc2.symm
      exact ⟨s ++ v', p', by rw [hc1, hw', List.append_assoc], ValidUtf8.cons hs hv', hp'⟩

/-- Every contiguous slice of a well-formed UTF-8 string is: a run of stray
continuation bytes (at most 3), then a well-formed string, then a strict
prefix of one sequence. -/
theorem validUtf8_infix_decomp {c : List Nat} (hc : ValidUtf8 c) :
    ∀ s w t : List Nat, s ++ (w ++ t) = c →
      ∃ u v p, w = u ++ (v ++ p) ∧ (∀ b ∈ u, isCont b = true) ∧ u.length ≤ 3 ∧
        ValidUtf8 v ∧ PartSeq p := by
  induction hc with
  | nil =>
    intro s w t h
    have h2 := List.append_eq_nil.mp h
    have hw := (List.append_eq_nil.mp h2.2).1
    exact ⟨[], [], [], by simp [hw], by simp, by simp, ValidUtf8.nil, Or.inl rfl⟩
  | cons hsq hl ih =>
    rename_i sq l
    intro s w t h
    by_cases hs0 : s = []
    · subst hs0
      simp only [List.nil_append] at h
      obtain ⟨v, p, hw, hv, hp⟩ := validUtf8_prefix_decomp (ValidUtf8.cons hsq hl) w t h
      exact ⟨[], v, p, by simp [hw], by simp, by simp, hv, hp⟩
    rcases List.append_eq_append_iff.mp h with ⟨a', ha1, ha2⟩ | ⟨c', hc1, hc2⟩
    · have ha'c : ∀ b ∈ a', isCont b = true := by
        intro b hb
        apply validSeq_tail_conts hsq
        rw [ha1]
        rcases s with _ | ⟨x, s'⟩
        · exact absurd rfl hs0
        · simpa using Or.inr hb
      have ha'len : a'.length ≤ 3 := by
        have h4 := (validSeq_length hsq).2
        rw [ha1, List.length_append] at h4
        have hs1 : 0 < s.length := List.length_pos.mpr hs0
        omega
      rcases List.append_eq_append_iff.mp ha2 with ⟨w', hw1, hw2⟩ | ⟨a'', hw1, hw2⟩
      · refine ⟨w, [], [], by simp, ?_, ?_, ValidUtf8.nil, Or.inl rfl⟩
        · intro b hb; exact ha'c b (hw1 ▸ List.mem_append_left w' hb)
        · have h5 := ha'len; rw [hw1, List.length_append] at h5; omega
      · obtain ⟨v, p, ha'', hv, hp⟩ := validUtf8_prefix_decomp hl a'' t hw2.symm
        exact ⟨a', v, p, by rw [hw1, ha''], ha'c, ha'len, hv, hp⟩
    · exact ih c' w t hc2.symm

/-- Master lemma: re-encoding the replace-decoding of any contiguous slice
of well-formed UTF-8 yields well-formed UTF-8 at most 8 bytes longer than
the slice (at most two replacement runs appear, only at the cut points). -/
theorem pyDecodeReplace_cut_bound {c s w t : List Nat} (hc : ValidUtf8 c)
    (h : s ++ (w ++ t) = c) :
    ValidUtf8 (pyDecodeReplace w) ∧ (pyDecodeReplace w).length ≤ w.length + 8 := by
  obtain ⟨u, v, p, hw, hu, hul, hv, hp⟩ := validUtf8_infix_decomp hc s w t h
  obtain ⟨r, hr, hrl, hrv⟩ := pyDecodeReplace_conts (v ++ p) hu
  have hvp : pyDecodeReplace (v ++ p) = v ++ pyDecodeReplace p :=
    pyDecodeReplace_valid_append hv p
  have hkey : pyDecodeReplace w = r ++ (v ++ pyDecodeReplace p) := by
    rw [hw, hr, hvp]
  rcases pyDecodeReplace_partial hp with ⟨hp0, hpe⟩ | ⟨hpF, hp1, hp3⟩
  · constructor
    · rw [hkey, hp0]
      exact validUtf8_append hrv (by simpa using hv)
    · rw [hkey, hp0, hw, hpe]
      simp only [List.length_append, List.length_nil]
      omega
  · constructor
    · rw [hkey, hpF]
      exact validUtf8_append hrv (validUtf8_append hv validUtf8_FFFD)
    · rw [hkey, hpF, hw]
      simp only [List.length_append, FFFD, List.length_cons, List.length_nil]
      omega

/-- Specialisation to `data[start:end]` slices. -/
theorem pyDecodeReplace_slice {c : List Nat} (hc : ValidUtf8 c) (i n : Nat) :
    ValidUtf8 (pyDecodeReplace ((c.drop i).take n)) ∧
      (pyDecodeReplace ((c.drop i).take n)).length ≤ ((c.drop i).take n).length + 8 := by
  refine pyDecodeReplace_cut_bound hc (s := c.take i) (t := (c.drop i).drop n) ?_
  rw [List.take_append_drop, List.take_append_drop]

/-! ## Global settings (`rags/global_settings.py`) -/

def EMBEDDING_MODEL_TOKENS_LIMIT : Nat := 8192

def S3_VECTOR_INDEX_METADATA_BYTES_LIMIT : Nat := 40960

def BATCH_VECTOR_UPSERT_SIZE : Nat := 40

/-! ## Chunk data model (`rags/chunks/abstract_splitter.py`) -/

/-- `TextChunk`: a chunk of text with metadata (contents as UTF-8 bytes). -/
structure TextChunk where
  content : List Nat
  metadata : Meta
deriving DecidableEq, Repr

/-- `FileChunk`: a chunk of a file with metadata (contents as UTF-8 bytes). -/
structure FileChunk where
  content : List Nat
  metadata : Meta
deriving DecidableEq, Repr

/-- `RagDocument`: loaded file content plus provenance metadata. -/
structure RagDocument where
  content : List Nat
  metadata : Meta
deriving DecidableEq, Repr

/-! ## Primitive splitters -/

/-- Python `range(0, stop, step)`.  (`range` raises `ValueError` on
`step = 0`; the model returns the empty list there, a case the program
never reaches since it always passes `chunk_overlap < chunk_size`.) -/
def rangeStepFrom (stop step : Nat) (cur : Nat) : List Nat :=
  if _h : 0 < step ∧ cur < stop then cur :: rangeStepFrom stop step (cur + step) else []
termination_by stop - cur
decreasing_by omega

theorem rangeStepFrom_eq (stop step : Nat) (hs : 0 < step) :
    ∀ cur, rangeStepFrom stop step cur =
      (List.range ((stop - cur + step - 1) / step)).map (fun j => cur + j * step) := by
  suffices h : ∀ d cur, stop - cur ≤ d → rangeStepFrom stop step cur =
      (List.range ((stop - cur + step - 1) / step)).map (fun j => cur + j * step) from
    fun cur => h stop cur (by omega)
  intro d
  induction d with
  | zero =>
    intro cur hle
    rw [rangeStepFrom, dif_neg (by omega)]
    have h0 : stop - cur = 0 := by omega
    rw [h0]
    have h2 : (0 + step - 1) / step = 0 := Nat.div_eq_of_lt (by omega)
    rw [h2]
    simp
  | succ d ih =>
    intro cur hle
    by_cases hc : cur < stop
    · rw [rangeStepFrom, dif_pos ⟨hs, hc⟩]
      have hn : (stop - cur + step - 1) / step = (stop - (cur + step) + step - 1) / step + 1 := by
        rcases le_or_lt (stop - cur) step with hle2 | hlt2
        · have h1 : stop - (cur + step) = 0 := by omega
          rw [h1]
          have h2 : (0 + step - 1) / step = 0 := Nat.div_eq_of_lt (by omega)
          rw [h2]
          have h3 : stop - cur + step - 1 = (stop - cur - 1) + step := by omega
          rw [h3, Nat.add_div_right _ hs]
          have h4 : (stop - cur - 1) / step = 0 := Nat.div_eq_of_lt (by omega)
          omega
        · have h3 : stop - cur + step - 1 = (stop - (cur + step) + step - 1) + step := by
            omega
          rw [h3, Nat.add_div_right _ hs]
      rw [hn, List.range_succ_eq_map, ih (cur + step) (by omega)]
      simp only [List.map_cons, List.map_map, Nat.zero_mul, Nat.add_zero]
      congr 1
      apply List.map_congr_left
      intro j _
      simp only [Function.comp_apply, Nat.succ_eq_add_one]
      ring
    · rw [rangeStepFrom, dif_neg (by omega)]
      have h0 : stop - cur = 0 := by omega
      rw [h0]
      have h2 : (0 + step - 1) / step = 0 := Nat.div_eq_of_lt (by omega)
      rw [h2]
      simp

/-- `BytesSplitter.split_text` (`bytes_text_splitter.py`): slide a window
of `chunk_size` bytes with stride `chunk_size - chunk_overlap` over the
UTF-8 bytes of the text, decode each window with `errors="replace"`, and
wrap each decoded window with `chunk_num` metadata in emission order. -/
def BytesSplitter.split_text (chunk_size chunk_overlap : Nat)
    (input_text : List Nat) : List TextChunk :=
  let data := input_text
  let step := chunk_size - chunk_overlap
  let text_chunks := (rangeStepFrom data.length step 0).map
    (fun start => pyDecodeReplace ((data.drop start).take chunk_size))
  text_chunks.enum.map fun ic => ⟨ic.2, [("chunk_num", MetaVal.nat ic.1)]⟩

/-- An abstract byte-level BPE tokenizer (tiktoken's `cl100k_base` is one):
`tokenBytes bs` is the byte string of each token of `encode`, in order.
Tokens are non-empty byte strings and concatenate back to the input;
`len(encode(text))` is `(tokenBytes text).length`, and `decode` of a
window of token ids concatenates the windows' token bytes and then decodes
them as UTF-8 with `errors="replace"`. -/
structure Tokenizer where
  tokenBytes : List Nat → List (List Nat)
  tokens_not_nil : ∀ bs t, t ∈ tokenBytes bs → t ≠ []
  tokens_flatten : ∀ bs, (tokenBytes bs).flatten = bs

/-- `AbstractFileSplitter.count_tokens`: `len(self.encoder.encode(text))`. -/
def count_tokens (tok : Tokenizer) (text : List Nat) : Nat :=
  (tok.tokenBytes text).length

/-- `AbstractFileSplitter.count_bytes`: `len(text.encode("utf-8"))`. -/
def count_bytes (text : List Nat) : Nat := text.length

/-- langchain's `split_text_on_tokens` loop: emit the window of
`size` token ids at `start`, stop if it reached the end of the ids,
otherwise advance by `step = size - overlap` (the model folds the
`cur_idx = min(...)` clamping into `List.take`).  As with `range`, a
non-positive stride (on which the Python loop would not terminate)
produces no windows; the program always passes `overlap < size`. -/
def splitTextOnTokens (size step : Nat) (ids : List (List Nat)) (start : Nat) :
    List (List (List Nat)) :=
  if _h : 0 < step ∧ start < ids.length then
    let window := (ids.drop start).take size
    if ids.length ≤ start + size then [window]
    else window :: splitTextOnTokens size step ids (start + step)
  else []
termination_by ids.length - start
decreasing_by omega

/-- `TokenSplitter.split_text` (`token_text_splitter.py`), which delegates
to langchain's `TokenTextSplitter`: split the token ids of the text into
sliding windows, decode each window, and wrap each with `chunk_num`
metadata in emission order. -/
def TokenSplitter.split_text (tok : Tokenizer) (chunk_size chunk_overlap : Nat)
    (input_text : List Nat) : List TextChunk :=
  let input_ids := tok.tokenBytes input_text
  let token_chunks :=
    (splitTextOnTokens chunk_size (chunk_size - chunk_overlap) input_ids 0).map
      (fun w => pyDecodeReplace w.flatten)
  token_chunks.enum.map fun ic => ⟨ic.2, [("chunk_num", MetaVal.nat ic.1)]⟩

/-! ## The Chunk Constraint Enforcer (`AbstractFileSplitter`) -/

def NUM_TOKENS_KEY : String := "num_tokens"

def NUM_BYTES_KEY : String := "num_bytes"

/-- `__init__`: chunk size handed to the token sub-splitter
(`self.token_limit - 2000`). -/
def token_splitter_chunk_size : Nat := EMBEDDING_MODEL_TOKENS_LIMIT - 2000

/-- `__init__`: chunk size handed to the byte sub-splitter
(`self.byte_limit - 1024 - 2000`). -/
def bytes_splitter_chunk_size : Nat := S3_VECTOR_INDEX_METADATA_BYTES_LIMIT - 1024 - 2000

/-- `__init__`: `chunk_overlap=1000` for both sub-splitters. -/
def splitter_chunk_overlap : Nat := 1000

/-- `_calculate_metadata_statistics`: store `num_tokens` and `num_bytes`
into every chunk's metadata. -/
def calculate_metadata_statistics (tok : Tokenizer) (file_chunks : List FileChunk) :
    List FileChunk :=
  file_chunks.map fun chunk =>
    ⟨chunk.content,
      (chunk.metadata.set NUM_TOKENS_KEY (MetaVal.nat (count_tokens tok chunk.content))).set
        NUM_BYTES_KEY (MetaVal.nat (count_bytes chunk.content))⟩

/-- `_filter_by_bytes`: keep chunks within the byte limit; re-split an
oversized chunk with the byte sub-splitter, give each sub-chunk a copy of
the parent metadata, and recompute the statistics of the new chunks. -/
def filter_by_bytes (tok : Tokenizer) (file_chunks : List FileChunk) : List FileChunk :=
  file_chunks.flatMap fun chunk =>
    if chunk.metadata.getNat NUM_BYTES_KEY ≤ S3_VECTOR_INDEX_METADATA_BYTES_LIMIT then
      [chunk]
    else
      let sub_chunks :=
        BytesSplitter.split_text bytes_splitter_chunk_size splitter_chunk_overlap
          chunk.content
      let new_file_chunks := sub_chunks.map fun sub => FileChunk.mk sub.content chunk.metadata
      calculate_metadata_statistics tok new_file_chunks

/-- `_filter_by_tokens`: same for the token limit with the token
sub-splitter. -/
def filter_by_tokens (tok : Tokenizer) (file_chunks : List FileChunk) : List FileChunk :=
  file_chunks.flatMap fun chunk =>
    if chunk.metadata.getNat NUM_TOKENS_KEY ≤ EMBEDDING_MODEL_TOKENS_LIMIT then
      [chunk]
    else
      let sub_chunks :=
        TokenSplitter.split_text tok token_splitter_chunk_size splitter_chunk_overlap
          chunk.content
      let new_file_chunks := sub_chunks.map fun sub => FileChunk.mk sub.content chunk.metadata
      calculate_metadata_statistics tok new_file_chunks

/-- `create_chunks`, with loading and structural splitting abstracted into
the `list_of_chunks` argument (the result of `split_file(load_file())`),
and the `raise ValueError` path as `Except.error`. -/
def create_chunks (tok : Tokenizer) (path_to_file : String)
    (list_of_chunks : List FileChunk) : Except String (List FileChunk) :=
  if list_of_chunks.isEmpty then
    Except.error ("No chunks were created from the file: " ++ path_to_file)
  else
    Except.ok
      (filter_by_tokens tok (filter_by_bytes tok
        (calculate_metadata_statistics tok list_of_chunks)))

/-! ## Helper lemmas for concrete computation and window reasoning -/

theorem pyDecodeReplace_ascii {l : List Nat} (h : ∀ b ∈ l, b ≤ 0x7F) :
    pyDecodeReplace l = l := by
  induction l with
  | nil => exact pyDecodeReplace_nil
  | cons b rest ih =>
    have hb := h b (List.mem_cons_self b rest)
    have h2 : pyDecodeReplace ([b] ++ rest) = [b] ++ pyDecodeReplace rest :=
      pyDecodeReplace_validSeq (ValidSeq.one hb) rest
    simpa [ih (fun x hx => h x (List.mem_cons_of_mem b hx))] using h2

theorem enum_range_map {α : Type _} (n : Nat) (f : Nat → α) :
    ((List.range n).map f).enum = (List.range n).map (fun i => (i, f i)) := by
  apply List.ext_getElem
  · simp
  · intro i h1 h2
    simp

/-- A concrete byte-level tokenizer (every byte is its own token), used to
instantiate the abstract tokenizer in closed computations. -/
def byteTokenizer : Tokenizer where
  tokenBytes bs := bs.map (fun b => [b])
  tokens_not_nil := by
    intro bs t ht
    simp only [List.mem_map] at ht
    obtain ⟨b, _, rfl⟩ := ht
    simp
  tokens_flatten := by
    intro bs
    induction bs with
    | nil => simp
    | cons b rest ih => simp [ih]

/-! ## Claim theorems: sub-splitter margins, loading, empty split, windows -/

/-- C2 (counterexample): the chunk sizes handed to the sub-splitters are
not strictly below the limits minus the reserved margins — they are
exactly equal to them (`8192 - 2000 = 8192 - 2*1000` and
`40960 - 1024 - 2000 = 40960 - (1024 + 2*1000)`). -/
theorem C2_counterexample :
    token_splitter_chunk_size = EMBEDDING_MODEL_TOKENS_LIMIT - 2 * splitter_chunk_overlap ∧
    ¬ token_splitter_chunk_size <
        EMBEDDING_MODEL_TOKENS_LIMIT - 2 * splitter_chunk_overlap ∧
    bytes_splitter_chunk_size =
      S3_VECTOR_INDEX_METADATA_BYTES_LIMIT - (1024 + 2 * splitter_chunk_overlap) ∧
    ¬ bytes_splitter_chunk_size <
        S3_VECTOR_INDEX_METADATA_BYTES_LIMIT - (1024 + 2 * splitter_chunk_overlap) := by
  refine ⟨?_, ?_, ?_, ?_⟩ <;>
    norm_num [token_splitter_chunk_size, bytes_splitter_chunk_size,
      splitter_chunk_overlap, EMBEDDING_MODEL_TOKENS_LIMIT,
      S3_VECTOR_INDEX_METADATA_BYTES_LIMIT]

/-- C2 (amended): the chunk size handed to the token sub-splitter equals
the global token limit minus twice the overlap, and the one handed to the
byte sub-splitter equals the global byte limit minus (1024 plus twice the
overlap); both are therefore at most — but not strictly below — those
margins, and strictly below the global limits themselves. -/
theorem C2_margin_reservation :
    token_splitter_chunk_size + 2 * splitter_chunk_overlap = EMBEDDING_MODEL_TOKENS_LIMIT ∧
    bytes_splitter_chunk_size + (1024 + 2 * splitter_chunk_overlap) =
      S3_VECTOR_INDEX_METADATA_BYTES_LIMIT ∧
    token_splitter_chunk_size < EMBEDDING_MODEL_TOKENS_LIMIT ∧
    bytes_splitter_chunk_size < S3_VECTOR_INDEX_METADATA_BYTES_LIMIT := by
  refine ⟨?_, ?_, ?_, ?_⟩ <;>
    norm_num [token_splitter_chunk_size, bytes_splitter_chunk_size,
      splitter_chunk_overlap, EMBEDDING_MODEL_TOKENS_LIMIT,
      S3_VECTOR_INDEX_METADATA_BYTES_LIMIT]

/-- `LangChainMDFileSplitter.load_file` (`langchain_md_splitter.py`).  The
file system is abstracted: `file` holds the raw bytes of the file at
`path_to_file`, or `none` when the file is missing, in which case `open`
raises `FileNotFoundError` (modelled as `Except.error`).  Reading with
`encoding="utf-8", errors="ignore"` produces the text whose UTF-8 bytes
are `pyDecodeIgnore` of the raw bytes. -/
def LangChainMDFileSplitter.load_file (path_to_file : String)
    (file : Option (List Nat)) : Except String RagDocument :=
  match file with
  | none => Except.error ("FileNotFoundError: " ++ path_to_file)
  | some raw =>
      Except.ok ⟨pyDecodeIgnore raw,
        [("source", MetaVal.str path_to_file), ("type", MetaVal.str "MD")]⟩

theorem seqLen_ranges {b : Nat} :
    seqLen b = 0 ∨ (seqLen b = 1 ∧ b ≤ 0x7F) ∨ (seqLen b = 2 ∧ 0xC2 ≤ b ∧ b ≤ 0xDF) ∨
      (seqLen b = 3 ∧ 0xE0 ≤ b ∧ b ≤ 0xEF) ∨ (seqLen b = 4 ∧ 0xF0 ≤ b ∧ b ≤ 0xF4) := by
  simp only [seqLen]
  split_ifs with h1 h2 h3 h4
  · exact Or.inr (Or.inl ⟨rfl, h1⟩)
  · exact Or.inr (Or.inr (Or.inl ⟨rfl, h2⟩))
  · exact Or.inr (Or.inr (Or.inr (Or.inl ⟨rfl, h3⟩)))
  · exact Or.inr (Or.inr (Or.inr (Or.inr ⟨rfl, h4⟩)))
  · exact Or.inl rfl

/-- The kept branch of the decoders always copies a well-formed sequence. -/
theorem validSeq_of_kept {b : Nat} {rest : List Nat}
    (hn : seqLen b ≠ 0)
    (hlen : ((rest.takeWhile (fun c => isCont c)).take (seqLen b - 1)).length
      = seqLen b - 1) :
    ValidSeq (b :: (rest.takeWhile (fun c => isCont c)).take (seqLen b - 1)) := by
  have hmem : ∀ x ∈ (rest.takeWhile (fun c => isCont c)).take (seqLen b - 1),
      isCont x = true := by
    intro x hx
    exact List.mem_takeWhile_imp (List.take_subset _ _ hx)
  rcases seqLen_ranges (b := b) with h | ⟨h, hb⟩ | ⟨h, hb1, hb2⟩ | ⟨h, hb1, hb2⟩ | ⟨h, hb1, hb2⟩
  · exact absurd h hn
  · rw [h] at hlen hmem ⊢
    have h0 : (rest.takeWhile (fun c => isCont c)).take 0 = [] := List.take_zero _
    rw [h0]
    exact ValidSeq.one hb
  · rw [h] at hlen hmem ⊢
    obtain ⟨c1, hc⟩ := List.length_eq_one.mp hlen
    rw [hc]
    exact ValidSeq.two hb1 hb2 (hmem c1 (by rw [hc]; simp))
  · rw [h] at hlen hmem ⊢
    obtain ⟨c1, c2, hc⟩ := List.length_eq_two.mp hlen
    rw [hc]
    exact ValidSeq.three hb1 hb2 (hmem c1 (by rw [hc]; simp)) (hmem c2 (by rw [hc]; simp))
  · rw [h] at hlen hmem ⊢
    obtain ⟨c1, c2, c3, hc⟩ := List.length_eq_three.mp hlen
    rw [hc]
    exact ValidSeq.four hb1 hb2 (hmem c1 (by rw [hc]; simp)) (hmem c2 (by rw [hc]; simp))
      (hmem c3 (by rw [hc]; simp))

/-- `errors="ignore"` always yields well-formed UTF-8 (so `load_file`
never raises on malformed input). -/
theorem pyDecodeIgnore_valid : ∀ l : List Nat, ValidUtf8 (pyDecodeIgnore l) := by
  suffices h : ∀ n, ∀ l : List Nat, l.length ≤ n → ValidUtf8 (pyDecodeIgnore l) from
    fun l => h l.length l le_rfl
  intro n
  induction n with
  | zero =>
    intro l hl
    have h0 : l = [] := List.eq_nil_of_length_eq_zero (by omega)
    rw [h0, pyDecodeIgnore]
    exact ValidUtf8.nil
  | succ n ih =>
    intro l hl
    match l with
    | [] => rw [pyDecodeIgnore]; exact ValidUtf8.nil
    | b :: rest =>
      rw [pyDecodeIgnore]
      simp only [List.length_cons] at hl
      by_cases h0 : seqLen b = 0
      · simp only [h0, if_pos rfl]
        exact ih rest (by omega)
      · simp only [if_neg h0]
        by_cases h1 : ((rest.takeWhile (fun c => isCont c)).take (seqLen b - 1)).length
            = seqLen b - 1
        · simp only [if_pos h1]
          exact ValidUtf8.cons (validSeq_of_kept h0 h1)
            (ih (rest.drop (seqLen b - 1)) (by simp only [List.length_drop]; omega))
        · simp only [if_neg h1]
          exact ih (rest.drop ((rest.takeWhile (fun c => isCont c)).take
            (seqLen b - 1)).length) (by simp only [List.length_drop]; omega)

/-- C3 (counterexample): `load_file` reads with `errors="ignore"`, which
drops the undecodable byte `0x80` (no placeholder character appears in the
loaded text), whereas substitution (`errors="replace"`) would insert
U+FFFD; the two behaviours differ on the bytes `61 80 62`. -/
theorem C3_counterexample :
    LangChainMDFileSplitter.load_file "doc.md" (some [97, 0x80, 98]) =
      Except.ok ⟨[97, 98],
        [("source", MetaVal.str "doc.md"), ("type", MetaVal.str "MD")]⟩ ∧
    pyDecodeReplace [97, 0x80, 98] = [97, 0xEF, 0xBF, 0xBD, 98] ∧
    pyDecodeIgnore [97, 0x80, 98] ≠ pyDecodeReplace [97, 0x80, 98] := by
  have hig : pyDecodeIgnore [97, 0x80, 98] = [97, 98] := by
    rw [pyDecodeIgnore]
    norm_num [seqLen, isCont]
    rw [pyDecodeIgnore]
    norm_num [seqLen, isCont]
    rw [pyDecodeIgnore]
    norm_num [seqLen, isCont]
    rw [pyDecodeIgnore]
  have hrep : pyDecodeReplace [97, 0x80, 98] = [97, 0xEF, 0xBF, 0xBD, 98] := by
    rw [pyDecodeReplace]
    norm_num [seqLen, isCont]
    rw [pyDecodeReplace]
    norm_num [seqLen, isCont, FFFD]
    rw [pyDecodeReplace]
    norm_num [seqLen, isCont]
    rw [pyDecodeReplace]
  refine ⟨?_, hrep, ?_⟩
  · simp [LangChainMDFileSplitter.load_file, hig]
  · rw [hig, hrep]
    simp

/-- C3 (amended): loading a Markdown file reads the whole file as UTF-8
text and tolerates decode errors by dropping undecodable bytes
(`errors="ignore"`) — it never raises on malformed UTF-8 and always
produces well-formed text — while a missing file causes a load failure
that propagates to the caller. -/
theorem C3_load_file_ignore (path : String) (raw : List Nat) :
    LangChainMDFileSplitter.load_file path none =
      Except.error ("FileNotFoundError: " ++ path) ∧
    (∃ doc, LangChainMDFileSplitter.load_file path (some raw) = Except.ok doc ∧
      doc.content = pyDecodeIgnore raw ∧ ValidUtf8 doc.content ∧
      doc.metadata.get "source" = some (MetaVal.str path)) := by
  refine ⟨rfl, ⟨_, rfl, rfl, pyDecodeIgnore_valid raw, ?_⟩⟩
  simp [Meta.get]

theorem C3_load_file_ignore_witness :
    LangChainMDFileSplitter.load_file "doc.md" none =
      Except.error ("FileNotFoundError: " ++ "doc.md") ∧
    (∃ doc, LangChainMDFileSplitter.load_file "doc.md" (some [97, 0x80, 98]) =
        Except.ok doc ∧
      doc.content = pyDecodeIgnore [97, 0x80, 98] ∧ ValidUtf8 doc.content ∧
      doc.metadata.get "source" = some (MetaVal.str "doc.md")) :=
  C3_load_file_ignore "doc.md" [97, 0x80, 98]

/-- C8: `create_chunks` fails (raises `ValueError`, returning no chunk
list) exactly when structural splitting yielded zero chunks; with at least
one structural chunk it returns a chunk list and no such error. -/
theorem C8_create_chunks_error_iff_empty (tok : Tokenizer) (path : String)
    (list_of_chunks : List FileChunk) :
    (∃ e, create_chunks tok path list_of_chunks = Except.error e) ↔
      list_of_chunks = [] := by
  constructor
  · rintro ⟨e, he⟩
    by_cases h : list_of_chunks.isEmpty
    · exact List.isEmpty_iff.mp h
    · rw [create_chunks, if_neg h] at he
      exact absurd he (by simp)
  · rintro rfl
    exact ⟨_, rfl⟩

theorem C8_create_chunks_error_iff_empty_witness :
    (∃ e, create_chunks byteTokenizer "file.md" [] = Except.error e) ∧
      ¬ ∃ e, create_chunks byteTokenizer "file.md"
        [⟨[97], []⟩] = Except.error e := by
  constructor
  · exact (C8_create_chunks_error_iff_empty byteTokenizer "file.md" []).mpr rfl
  · intro hcontra
    have h2 := (C8_create_chunks_error_iff_empty byteTokenizer "file.md"
      [⟨[97], []⟩]).mp hcontra
    exact absurd h2 (by simp)

/-- C9: `BytesSplitter.split_text` produces the decoded byte windows
`data[i*step : i*step + chunk_size]` for `i = 0, 1, …` with
`step = chunk_size - chunk_overlap`, stopping once the start offset
reaches `len(data)` (so there are `⌈len(data)/step⌉` windows), numbering
them `chunk_num = 0, 1, 2, …` in emission order; empty input yields zero
chunks, and `chunk_size=4, chunk_overlap=2` on `"abcdef"` yields exactly
`["abcd", "cdef", "ef"]` with `chunk_num` 0, 1, 2. -/
theorem C9_bytes_splitter_sliding_window (chunk_size chunk_overlap : Nat)
    (data : List Nat) (h : chunk_overlap < chunk_size) :
    BytesSplitter.split_text chunk_size chunk_overlap data =
      (List.range ((data.length + (chunk_size - chunk_overlap) - 1) /
          (chunk_size - chunk_overlap))).map
        (fun i => ⟨pyDecodeReplace
            ((data.drop (i * (chunk_size - chunk_overlap))).take chunk_size),
          [("chunk_num", MetaVal.nat i)]⟩) ∧
    BytesSplitter.split_text chunk_size chunk_overlap [] = [] ∧
    BytesSplitter.split_text 4 2 [97, 98, 99, 100, 101, 102] =
      [⟨[97, 98, 99, 100], [("chunk_num", MetaVal.nat 0)]⟩,
       ⟨[99, 100, 101, 102], [("chunk_num", MetaVal.nat 1)]⟩,
       ⟨[101, 102], [("chunk_num", MetaVal.nat 2)]⟩] := by
  refine ⟨?_, ?_, ?_⟩
  · simp only [BytesSplitter.split_text]
    rw [rangeStepFrom_eq _ _ (by omega) 0]
    rw [List.map_map, enum_range_map, List.map_map]
    simp only [Nat.sub_zero]
    apply List.map_congr_left
    intro j _
    simp only [Function.comp_apply, Nat.zero_add]
  · simp only [BytesSplitter.split_text, List.length_nil]
    rw [rangeStepFrom, dif_neg (by omega)]
    simp
  · have h1 : rangeStepFrom 6 2 0 = [0, 2, 4] := by
      rw [rangeStepFrom, dif_pos (by norm_num), rangeStepFrom, dif_pos (by norm_num),
        rangeStepFrom, dif_pos (by norm_num), rangeStepFrom, dif_neg (by norm_num)]
    have ha : ∀ l : List Nat, (∀ b ∈ l, b ≤ 0x7F) → pyDecodeReplace l = l :=
      fun l hl => pyDecodeReplace_ascii hl
    simp only [BytesSplitter.split_text]
    norm_num
    rw [h1]
    simp only [List.map_cons, List.map_nil]
    norm_num
    rw [ha [97, 98, 99, 100] (by decide), ha [99, 100, 101, 102] (by decide),
      ha [101, 102] (by decide)]
    simp [List.enum, List.enumFrom]

theorem C9_bytes_splitter_sliding_window_witness :
    BytesSplitter.split_text 4 2 [97, 98, 99, 100, 101, 102] =
      [⟨[97, 98, 99, 100], [("chunk_num", MetaVal.nat 0)]⟩,
       ⟨[99, 100, 101, 102], [("chunk_num", MetaVal.nat 1)]⟩,
       ⟨[101, 102], [("chunk_num", MetaVal.nat 2)]⟩] :=
  (C9_bytes_splitter_sliding_window 4 2 [97, 98, 99, 100, 101, 102] (by norm_num)).2.2

/-! ## Window-membership lemmas for the two primitive splitters -/

theorem snd_mem_of_mem_enum {α : Type _} {l : List α} {p : Nat × α} (h : p ∈ l.enum) :
    p.2 ∈ l := by
  rw [List.enum_eq_zip_range] at h
  exact (List.of_mem_zip h).2

/-- Every chunk emitted by `BytesSplitter.split_text` is the replace-decoding
of a window `data[i : i + chunk_size]`. -/
theorem bytes_split_text_mem {cs co : Nat} {data : List Nat} {tc : TextChunk}
    (h : tc ∈ BytesSplitter.split_text cs co data) :
    ∃ i, tc.content = pyDecodeReplace ((data.drop i).take cs) := by
  simp only [BytesSplitter.split_text] at h
  rw [List.mem_map] at h
  obtain ⟨ic, hic, rfl⟩ := h
  have h2 := snd_mem_of_mem_enum hic
  rw [List.mem_map] at h2
  obtain ⟨start, _, heq⟩ := h2
  exact ⟨start, heq.symm⟩

/-- Every window emitted by the langchain token-window loop is
`ids[i : i + size]` for some `i`. -/
theorem splitTextOnTokens_mem {size step : Nat} {ids w : List (List Nat)} :
    ∀ start, w ∈ splitTextOnTokens size step ids start →
      ∃ i, w = (ids.drop i).take size := by
  suffices h : ∀ d start, ids.length - start ≤ d →
      w ∈ splitTextOnTokens size step ids start → ∃ i, w = (ids.drop i).take size from
    fun start hw => h ids.length start (by omega) hw
  intro d
  induction d with
  | zero =>
    intro start hle hw
    rw [splitTextOnTokens] at hw
    rw [dif_neg (by omega)] at hw
    exact absurd hw (List.not_mem_nil w)
  | succ d ih =>
    intro start hle hw
    rw [splitTextOnTokens] at hw
    by_cases hc : 0 < step ∧ start < ids.length
    · rw [dif_pos hc] at hw
      by_cases hend : ids.length ≤ start + size
      · rw [if_pos hend] at hw
        rw [List.mem_singleton] at hw
        exact ⟨start, hw⟩
      · rw [if_neg hend] at hw
        rcases List.mem_cons.mp hw with hw | hw
        · exact ⟨start, hw⟩
        · exact ih (start + step) (by omega) hw
    · rw [dif_neg hc] at hw
      exact absurd hw (List.not_mem_nil w)

/-- Every chunk emitted by `TokenSplitter.split_text` is the decoding of a
window of at most `chunk_size` token byte strings of the input. -/
theorem token_split_text_mem {tok : Tokenizer} {cs co : Nat} {text : List Nat}
    {tc : TextChunk} (h : tc ∈ TokenSplitter.split_text tok cs co text) :
    ∃ i, tc.content =
      pyDecodeReplace (((tok.tokenBytes text).drop i).take cs).flatten := by
  simp only [TokenSplitter.split_text] at h
  rw [List.mem_map] at h
  obtain ⟨ic, hic, rfl⟩ := h
  have h2 := snd_mem_of_mem_enum hic
  rw [List.mem_map] at h2
  obtain ⟨w, hw, heq⟩ := h2
  obtain ⟨i, hi⟩ := splitTextOnTokens_mem 0 hw
  exact ⟨i, by rw [← heq, hi]⟩

/-! ## Token-window size arithmetic -/

theorem length_le_flatten_length {l : List (List Nat)} (h : ∀ t ∈ l, t ≠ []) :
    l.length ≤ l.flatten.length := by
  induction l with
  | nil => simp
  | cons t rest ih =>
    simp only [List.flatten_cons, List.length_append, List.length_cons]
    have ht : 0 < t.length := List.length_pos.mpr (h t (List.mem_cons_self t rest))
    have h2 := ih (fun x hx => h x (List.mem_cons_of_mem t hx))
    omega

theorem flatten_parts (ids : List (List Nat)) (i n : Nat) :
    ids.flatten.length = (ids.take i).flatten.length +
      ((ids.drop i).take n).flatten.length + ((ids.drop i).drop n).flatten.length := by
  conv_lhs => rw [← List.take_append_drop i ids, ← List.take_append_drop n (ids.drop i)]
  rw [List.flatten_append, List.flatten_append]
  simp [List.length_append]
  omega

/-- The bytes of a token window are an infix of the bytes of the text. -/
theorem flatten_window_join_eq (ids : List (List Nat)) (i n : Nat) :
    (ids.take i).flatten ++ (((ids.drop i).take n).flatten ++
      ((ids.drop i).drop n).flatten) = ids.flatten := by
  rw [← List.flatten_append, ← List.flatten_append]
  rw [List.take_append_drop, List.take_append_drop]

/-- If at least `ids.length - n` tokens lie outside a window of `n` tokens
and all tokens are non-empty, the window's bytes are at most
`ids.flatten.length - (ids.length - n)`. -/
theorem flatten_window_length_le {ids : List (List Nat)} (hne : ∀ t ∈ ids, t ≠ [])
    (i n : Nat) :
    ((ids.drop i).take n).flatten.length + (ids.length - n) ≤ ids.flatten.length := by
  have hparts := flatten_parts ids i n
  have h1 : (ids.take i).length ≤ (ids.take i).flatten.length :=
    length_le_flatten_length (fun t ht => hne t (List.take_subset i ids ht))
  have h2 : ((ids.drop i).drop n).length ≤ ((ids.drop i).drop n).flatten.length :=
    length_le_flatten_length
      (fun t ht => hne t (List.drop_subset i ids (List.drop_subset n (ids.drop i) ht)))
  have h3 : (ids.take i).length = min i ids.length := List.length_take i ids
  have h4 : ((ids.drop i).drop n).length = ids.length - i - n := by
    simp only [List.length_drop]
  omega

/-! ## Pipeline invariants for the size-ceiling proof -/

/-- The chunk's stored `num_bytes` / `num_tokens` match its content. -/
def AccurateStats (tok : Tokenizer) (chunk : FileChunk) : Prop :=
  chunk.metadata.getNat NUM_BYTES_KEY = count_bytes chunk.content ∧
  chunk.metadata.getNat NUM_TOKENS_KEY = count_tokens tok chunk.content

theorem calc_stats_mem {tok : Tokenizer} {l : List FileChunk} {ch : FileChunk}
    (h : ch ∈ calculate_metadata_statistics tok l) :
    AccurateStats tok ch ∧ ∃ ch0 ∈ l, ch.content = ch0.content := by
  rw [calculate_metadata_statistics, List.mem_map] at h
  obtain ⟨ch0, h0, rfl⟩ := h
  refine ⟨⟨Meta.getNat_set_same _ _ _, ?_⟩, ⟨ch0, h0, rfl⟩⟩
  rw [Meta.getNat_set_ne _ _ _ _ (by decide), Meta.getNat_set_same]

/-- Every chunk leaving the byte-filter pass has accurate statistics,
well-formed content, and content within the byte limit. -/
theorem filter_by_bytes_mem {tok : Tokenizer} {l : List FileChunk} {ch' : FileChunk}
    (hin : ∀ ch ∈ l, AccurateStats tok ch ∧ ValidUtf8 ch.content)
    (h : ch' ∈ filter_by_bytes tok l) :
    AccurateStats tok ch' ∧ ValidUtf8 ch'.content ∧
      ch'.content.length ≤ S3_VECTOR_INDEX_METADATA_BYTES_LIMIT := by
  simp only [filter_by_bytes, List.mem_flatMap] at h
  obtain ⟨ch, hch, hmem⟩ := h
  obtain ⟨⟨hb, ht⟩, hv⟩ := hin ch hch
  by_cases hsize : ch.metadata.getNat NUM_BYTES_KEY ≤ S3_VECTOR_INDEX_METADATA_BYTES_LIMIT
  · rw [if_pos hsize] at hmem
    rw [List.mem_singleton] at hmem
    subst hmem
    refine ⟨⟨hb, ht⟩, hv, ?_⟩
    rw [hb] at hsize
    exact hsize
  · rw [if_neg hsize] at hmem
    obtain ⟨hacc, ⟨ch0, h0, hcont⟩⟩ := calc_stats_mem hmem
    rw [List.mem_map] at h0
    obtain ⟨sub, hsub, rfl⟩ := h0
    obtain ⟨i, hi⟩ := bytes_split_text_mem hsub
    have hcc : ch'.content = pyDecodeReplace ((ch.content.drop i).take
        bytes_splitter_chunk_size) := by rw [hcont, hi]
    have hslice := pyDecodeReplace_slice hv i bytes_splitter_chunk_size
    refine ⟨hacc, by rw [hcc]; exact hslice.1, ?_⟩
    have hlen := hslice.2
    have htake : ((ch.content.drop i).take bytes_splitter_chunk_size).length ≤
        bytes_splitter_chunk_size := by
      rw [List.length_take]
      omega
    have hc1 : bytes_splitter_chunk_size = 37936 := by
      norm_num [bytes_splitter_chunk_size, S3_VECTOR_INDEX_METADATA_BYTES_LIMIT]
    have hc2 : S3_VECTOR_INDEX_METADATA_BYTES_LIMIT = 40960 := by
      norm_num [S3_VECTOR_INDEX_METADATA_BYTES_LIMIT]
    rw [hcc]
    omega

/-- Re-encoding stability of the tokenizer: re-tokenising the decoded text
of any `n`-token window yields at most `n + margin` tokens.  The token
ceiling of the pipeline rests on this property of the configured BPE
tokenizer (the enforcer reserves a 2000-token margin for it). -/
def ReencodeStable (tok : Tokenizer) (margin : Nat) : Prop :=
  ∀ bs i n, ValidUtf8 bs →
    count_tokens tok (pyDecodeReplace (((tok.tokenBytes bs).drop i).take n).flatten)
      ≤ n + margin

/-- Every chunk leaving the token-filter pass (fed with the byte-filter
pass output) is within both ceilings according to its stored metadata. -/
theorem filter_by_tokens_mem {tok : Tokenizer} {l : List FileChunk} {ch' : FileChunk}
    (hre : ReencodeStable tok 2000)
    (hin : ∀ ch ∈ l, AccurateStats tok ch ∧ ValidUtf8 ch.content ∧
      ch.content.length ≤ S3_VECTOR_INDEX_METADATA_BYTES_LIMIT)
    (h : ch' ∈ filter_by_tokens tok l) :
    ch'.metadata.getNat NUM_BYTES_KEY ≤ S3_VECTOR_INDEX_METADATA_BYTES_LIMIT ∧
      ch'.metadata.getNat NUM_TOKENS_KEY ≤ EMBEDDING_MODEL_TOKENS_LIMIT := by
  simp only [filter_by_tokens, List.mem_flatMap] at h
  obtain ⟨ch, hch, hmem⟩ := h
  obtain ⟨⟨hb, ht⟩, hv, hlen⟩ := hin ch hch
  by_cases hsize : ch.metadata.getNat NUM_TOKENS_KEY ≤ EMBEDDING_MODEL_TOKENS_LIMIT
  · rw [if_pos hsize] at hmem
    rw [List.mem_singleton] at hmem
    subst hmem
    refine ⟨?_, hsize⟩
    rw [hb]
    exact hlen
  · rw [if_neg hsize] at hmem
    obtain ⟨⟨hacc_b, hacc_t⟩, ⟨ch0, h0, hcont⟩⟩ := calc_stats_mem hmem
    rw [List.mem_map] at h0
    obtain ⟨sub, hsub, rfl⟩ := h0
    obtain ⟨i, hi⟩ := token_split_text_mem hsub
    have hcc : ch'.content = pyDecodeReplace
        (((tok.tokenBytes ch.content).drop i).take token_splitter_chunk_size).flatten := by
      rw [hcont, hi]
    have hidtot : (tok.tokenBytes ch.content).flatten = ch.content :=
      tok.tokens_flatten _
    have hne : ∀ t ∈ tok.tokenBytes ch.content, t ≠ [] :=
      fun t htk => tok.tokens_not_nil _ t htk
    -- number of tokens of the parent exceeds the limit
    have hcount : EMBEDDING_MODEL_TOKENS_LIMIT < count_tokens tok ch.content := by
      rw [← ht]
      omega
    -- byte size of the window
    have hwin := flatten_window_length_le hne i token_splitter_chunk_size
    rw [hidtot] at hwin
    -- decoding bound: the window bytes are an infix of the parent content
    have hinfix := pyDecodeReplace_cut_bound (c := ch.content)
      (s := ((tok.tokenBytes ch.content).take i).flatten)
      (w := (((tok.tokenBytes ch.content).drop i).take token_splitter_chunk_size).flatten)
      (t := (((tok.tokenBytes ch.content).drop i).drop token_splitter_chunk_size).flatten)
      hv (by rw [flatten_window_join_eq, hidtot])
    -- token recount bound from re-encoding stability
    have hretok := hre ch.content i token_splitter_chunk_size hv
    have hc1 : token_splitter_chunk_size = 6192 := by
      norm_num [token_splitter_chunk_size, EMBEDDING_MODEL_TOKENS_LIMIT]
    have hc2 : EMBEDDING_MODEL_TOKENS_LIMIT = 8192 := by
      norm_num [EMBEDDING_MODEL_TOKENS_LIMIT]
    have hc3 : S3_VECTOR_INDEX_METADATA_BYTES_LIMIT = 40960 := by
      norm_num [S3_VECTOR_INDEX_METADATA_BYTES_LIMIT]
    have hctl : count_tokens tok ch.content = (tok.tokenBytes ch.content).length := rfl
    constructor
    · rw [hacc_b, count_bytes, hcc]
      have hb2 := hinfix.2
      rw [hctl] at hcount
      omega
    · rw [hacc_t, hcc]
      omega

/-- C1: every chunk returned by `create_chunks` satisfies both size
ceilings in its metadata: `num_bytes ≤ 40960` and `num_tokens ≤ 8192` —
including sub-chunks from the token-filter pass that runs after the
byte-filter pass, and byte windows whose decoding replaced cut multi-byte
sequences with placeholder characters.  (The structural chunks carry
well-formed UTF-8 text, and the tokenizer is re-encoding stable within the
reserved 2000-token margin.) -/
theorem C1_create_chunks_size_ceilings (tok : Tokenizer)
    (hre : ReencodeStable tok 2000) (path : String)
    (list_of_chunks : List FileChunk)
    (hval : ∀ ch ∈ list_of_chunks, ValidUtf8 ch.content)
    (out : List FileChunk)
    (hout : create_chunks tok path list_of_chunks = Except.ok out) :
    ∀ ch ∈ out,
      ch.metadata.getNat NUM_BYTES_KEY ≤ S3_VECTOR_INDEX_METADATA_BYTES_LIMIT ∧
      ch.metadata.getNat NUM_TOKENS_KEY ≤ EMBEDDING_MODEL_TOKENS_LIMIT := by
  intro ch hmem
  have hpipe : out = filter_by_tokens tok (filter_by_bytes tok
      (calculate_metadata_statistics tok list_of_chunks)) := by
    rw [create_chunks] at hout
    by_cases hemp : list_of_chunks.isEmpty
    · rw [if_pos hemp] at hout
      exact absurd hout (by simp)
    · rw [if_neg hemp] at hout
      exact (Except.ok.injEq _ _ ▸ hout).symm ▸ rfl
  rw [hpipe] at hmem
  refine filter_by_tokens_mem hre ?_ hmem
  intro ch1 h1
  refine filter_by_bytes_mem ?_ h1
  intro ch2 h2
  obtain ⟨hacc, ⟨ch0, h0, hcont⟩⟩ := calc_stats_mem h2
  exact ⟨hacc, hcont ▸ hval ch0 h0⟩

/-! ## A re-encoding-stable concrete tokenizer and the C1 witness -/

theorem validUtf8_ascii {l : List Nat} (h : ∀ b ∈ l, b ≤ 0x7F) : ValidUtf8 l := by
  induction l with
  | nil => exact ValidUtf8.nil
  | cons b rest ih =>
    have h2 : ValidUtf8 ([b] ++ rest) :=
      ValidUtf8.cons (ValidSeq.one (h b (List.mem_cons_self b rest)))
        (ih (fun x hx => h x (List.mem_cons_of_mem b hx)))
    simpa using h2

theorem byteTokenizer_tokenBytes (bs : List Nat) :
    byteTokenizer.tokenBytes bs = bs.map (fun b => [b]) := rfl

theorem byteTokenizer_count (bs : List Nat) :
    count_tokens byteTokenizer bs = bs.length := by
  rw [count_tokens, byteTokenizer_tokenBytes, List.length_map]

theorem byteTokenizer_reencode_stable : ReencodeStable byteTokenizer 2000 := by
  intro bs i n hv
  have hflat : (((byteTokenizer.tokenBytes bs).drop i).take n).flatten =
      (bs.drop i).take n := by
    rw [byteTokenizer_tokenBytes, ← List.map_drop, ← List.map_take]
    exact byteTokenizer.tokens_flatten ((bs.drop i).take n)
  rw [hflat, byteTokenizer_count]
  have hslice := (pyDecodeReplace_slice hv i n).2
  have htake : ((bs.drop i).take n).length ≤ n := by
    rw [List.length_take]
    omega
  omega

theorem C1_create_chunks_size_ceilings_witness :
    (⟨[97, 98], [(NUM_BYTES_KEY, MetaVal.nat 2), (NUM_TOKENS_KEY, MetaVal.nat 2)]⟩ :
        FileChunk).metadata.getNat NUM_BYTES_KEY ≤
      S3_VECTOR_INDEX_METADATA_BYTES_LIMIT ∧
    (⟨[97, 98], [(NUM_BYTES_KEY, MetaVal.nat 2), (NUM_TOKENS_KEY, MetaVal.nat 2)]⟩ :
        FileChunk).metadata.getNat NUM_TOKENS_KEY ≤
      EMBEDDING_MODEL_TOKENS_LIMIT :=
  C1_create_chunks_size_ceilings byteTokenizer byteTokenizer_reencode_stable "file.md"
    [⟨[97, 98], []⟩]
    (by
      intro ch hch
      rw [List.mem_singleton] at hch
      subst hch
      exact validUtf8_ascii (by decide))
    [⟨[97, 98], [(NUM_BYTES_KEY, MetaVal.nat 2), (NUM_TOKENS_KEY, MetaVal.nat 2)]⟩]
    (by rfl)
    ⟨[97, 98], [(NUM_BYTES_KEY, MetaVal.nat 2), (NUM_TOKENS_KEY, MetaVal.nat 2)]⟩
    (List.mem_singleton_self _)

/-! ## Concrete window counts for the ordering experiment -/

theorem splitTextOnTokens_last {size step : Nat} {ids : List (List Nat)} {start : Nat}
    (h1 : 0 < step) (h2 : start < ids.length) (h3 : ids.length ≤ start + size) :
    splitTextOnTokens size step ids start = [(ids.drop start).take size] := by
  rw [splitTextOnTokens, dif_pos ⟨h1, h2⟩, if_pos h3]

theorem splitTextOnTokens_step {size step : Nat} {ids : List (List Nat)} {start : Nat}
    (h1 : 0 < step) (h2 : start < ids.length) (h3 : ¬ ids.length ≤ start + size) :
    splitTextOnTokens size step ids start =
      (ids.drop start).take size :: splitTextOnTokens size step ids (start + step) := by
  rw [splitTextOnTokens, dif_pos ⟨h1, h2⟩, if_neg h3]

theorem byteTokenizer_window_flatten (bs : List Nat) (i n : Nat) :
    (((byteTokenizer.tokenBytes bs).drop i).take n).flatten = (bs.drop i).take n := by
  rw [byteTokenizer_tokenBytes, ← List.map_drop, ← List.map_take]
  exact byteTokenizer.tokens_flatten ((bs.drop i).take n)

theorem tokenWindows_len_50000 :
    (splitTextOnTokens 6192 5192 (List.replicate 50000 ([97] : List Nat)) 0).length
      = 10 := by
  rw [splitTextOnTokens_step (by norm_num) (by norm_num) (by norm_num)]
  rw [splitTextOnTokens_step (by norm_num) (by norm_num) (by norm_num)]
  rw [splitTextOnTokens_step (by norm_num) (by norm_num) (by norm_num)]
  rw [splitTextOnTokens_step (by norm_num) (by norm_num) (by norm_num)]
  rw [splitTextOnTokens_step (by norm_num) (by norm_num) (by norm_num)]
  rw [splitTextOnTokens_step (by norm_num) (by norm_num) (by norm_num)]
  rw [splitTextOnTokens_step (by norm_num) (by norm_num) (by norm_num)]
  rw [splitTextOnTokens_step (by norm_num) (by norm_num) (by norm_num)]
  rw [splitTextOnTokens_step (by norm_num) (by norm_num) (by norm_num)]
  rw [splitTextOnTokens_last (by norm_num) (by norm_num) (by norm_num)]
  simp only [List.length_cons, List.length_singleton, List.length_nil]

theorem tokenWindows_len_37936 :
    (splitTextOnTokens 6192 5192 (List.replicate 37936 ([97] : List Nat)) 0).length
      = 8 := by
  rw [splitTextOnTokens_step (by norm_num) (by norm_num) (by norm_num)]
  rw [splitTextOnTokens_step (by norm_num) (by norm_num) (by norm_num)]
  rw [splitTextOnTokens_step (by norm_num) (by norm_num) (by norm_num)]
  rw [splitTextOnTokens_step (by norm_num) (by norm_num) (by norm_num)]
  rw [splitTextOnTokens_step (by norm_num) (by norm_num) (by norm_num)]
  rw [splitTextOnTokens_step (by norm_num) (by norm_num) (by norm_num)]
  rw [splitTextOnTokens_step (by norm_num) (by norm_num) (by norm_num)]
  rw [splitTextOnTokens_last (by norm_num) (by norm_num) (by norm_num)]
  simp only [List.length_cons, List.length_singleton, List.length_nil]

theorem tokenWindows_len_13064 :
    (splitTextOnTokens 6192 5192 (List.replicate 13064 ([97] : List Nat)) 0).length
      = 3 := by
  rw [splitTextOnTokens_step (by norm_num) (by norm_num) (by norm_num)]
  rw [splitTextOnTokens_step (by norm_num) (by norm_num) (by norm_num)]
  rw [splitTextOnTokens_last (by norm_num) (by norm_num) (by norm_num)]
  simp only [List.length_cons, List.length_singleton, List.length_nil]

theorem byteWindows_starts_50000 : rangeStepFrom 50000 36936 0 = [0, 36936] := by
  rw [rangeStepFrom, dif_pos (by norm_num), rangeStepFrom, dif_pos (by norm_num),
    rangeStepFrom, dif_neg (by norm_num)]

/-- When every chunk is within the byte limit the byte-filter pass is the
identity. -/
theorem filter_by_bytes_all_small {tok : Tokenizer} {l : List FileChunk}
    (h : ∀ ch ∈ l,
      ch.metadata.getNat NUM_BYTES_KEY ≤ S3_VECTOR_INDEX_METADATA_BYTES_LIMIT) :
    filter_by_bytes tok l = l := by
  induction l with
  | nil => rfl
  | cons a rest ih =>
    have ha := h a (List.mem_cons_self a rest)
    have hr := ih (fun x hx => h x (List.mem_cons_of_mem a hx))
    simp only [filter_by_bytes, List.flatMap_cons] at hr ⊢
    rw [if_pos ha, hr]
    rfl

/-- C4: in `create_chunks` the byte-filter pass runs before the
token-filter pass, and the order is observable: on a single structural
chunk of 50000 ASCII bytes (50000 tokens under the byte tokenizer, over
both ceilings) the byte-first pipeline (the one `create_chunks` runs)
emits 11 chunks, while running the token pass first and the byte pass
second would emit 10. -/
theorem C4_byte_before_token_order_observable :
    ∃ out, create_chunks byteTokenizer "big.md"
        [⟨List.replicate 50000 97, []⟩] = Except.ok out ∧
      out = filter_by_tokens byteTokenizer (filter_by_bytes byteTokenizer
        (calculate_metadata_statistics byteTokenizer
          [⟨List.replicate 50000 97, []⟩])) ∧
      out.length = 11 ∧
      (filter_by_bytes byteTokenizer (filter_by_tokens byteTokenizer
        (calculate_metadata_statistics byteTokenizer
          [⟨List.replicate 50000 97, []⟩]))).length = 10 ∧
      (11 : Nat) ≠ 10 := by
  have hAsc : ∀ n : Nat, ∀ b ∈ List.replicate n (97 : Nat), b ≤ 0x7F := by
    intro n b hb
    rw [List.eq_of_mem_replicate hb]
    norm_num
  have hcs : bytes_splitter_chunk_size = 37936 := by
    norm_num [bytes_splitter_chunk_size, S3_VECTOR_INDEX_METADATA_BYTES_LIMIT]
  have hts : token_splitter_chunk_size = 6192 := by
    norm_num [token_splitter_chunk_size, EMBEDDING_MODEL_TOKENS_LIMIT]
  have hov : splitter_chunk_overlap = 1000 := rfl
  have hstep : token_splitter_chunk_size - splitter_chunk_overlap = 5192 := by
    norm_num [token_splitter_chunk_size, EMBEDDING_MODEL_TOKENS_LIMIT,
      splitter_chunk_overlap]
  -- the statistics of the structural chunk
  have hcalc : calculate_metadata_statistics byteTokenizer
      [⟨List.replicate 50000 97, []⟩] =
      [⟨List.replicate 50000 97,
        (Meta.set [] NUM_TOKENS_KEY (MetaVal.nat 50000)).set NUM_BYTES_KEY
          (MetaVal.nat 50000)⟩] := by
    simp only [calculate_metadata_statistics, List.map_cons, List.map_nil,
      byteTokenizer_count, count_bytes, List.length_replicate]
  set m50 : Meta := (Meta.set [] NUM_TOKENS_KEY (MetaVal.nat 50000)).set NUM_BYTES_KEY
    (MetaVal.nat 50000) with hm50
  have hm50b : m50.getNat NUM_BYTES_KEY = 50000 := Meta.getNat_set_same _ _ _
  have hm50t : m50.getNat NUM_TOKENS_KEY = 50000 := by
    rw [hm50, Meta.getNat_set_ne _ _ _ _ (by decide), Meta.getNat_set_same]
  -- the byte pass splits the chunk into two windows
  have hsplitB : BytesSplitter.split_text bytes_splitter_chunk_size
      splitter_chunk_overlap (List.replicate 50000 97) =
      [⟨List.replicate 37936 97, [("chunk_num", MetaVal.nat 0)]⟩,
       ⟨List.replicate 13064 97, [("chunk_num", MetaVal.nat 1)]⟩] := by
    rw [hcs, hov]
    simp only [BytesSplitter.split_text, List.length_replicate]
    rw [show (37936 - 1000 : Nat) = 36936 from by norm_num, byteWindows_starts_50000]
    simp only [List.map_cons, List.map_nil, List.drop_zero, List.take_replicate,
      List.drop_replicate]
    rw [show (min 37936 50000 : Nat) = 37936 from by norm_num,
      show (50000 - 36936 : Nat) = 13064 from by norm_num,
      show (min 37936 13064 : Nat) = 13064 from by norm_num]
    rw [pyDecodeReplace_ascii (hAsc 37936), pyDecodeReplace_ascii (hAsc 13064)]
    simp only [List.enum, List.enumFrom, List.map_cons, List.map_nil]
  set m37 : Meta := (m50.set NUM_TOKENS_KEY (MetaVal.nat 37936)).set NUM_BYTES_KEY
    (MetaVal.nat 37936) with hm37
  set m13 : Meta := (m50.set NUM_TOKENS_KEY (MetaVal.nat 13064)).set NUM_BYTES_KEY
    (MetaVal.nat 13064) with hm13
  have hbytes : filter_by_bytes byteTokenizer [⟨List.replicate 50000 97, m50⟩] =
      [⟨List.replicate 37936 97, m37⟩, ⟨List.replicate 13064 97, m13⟩] := by
    simp only [filter_by_bytes, List.flatMap_cons, List.flatMap_nil, List.append_nil]
    rw [if_neg (by rw [hm50b]; norm_num [S3_VECTOR_INDEX_METADATA_BYTES_LIMIT])]
    rw [hsplitB]
    simp only [List.map_cons, List.map_nil, calculate_metadata_statistics,
      byteTokenizer_count, count_bytes, List.length_replicate]
  have hm37t : m37.getNat NUM_TOKENS_KEY = 37936 := by
    rw [hm37, Meta.getNat_set_ne _ _ _ _ (by decide), Meta.getNat_set_same]
  have hm13t : m13.getNat NUM_TOKENS_KEY = 13064 := by
    rw [hm13, Meta.getNat_set_ne _ _ _ _ (by decide), Meta.getNat_set_same]
  -- byte-first: the token pass splits the two windows into 8 + 3 chunks
  have h11 : (filter_by_tokens byteTokenizer
      [⟨List.replicate 37936 97, m37⟩, ⟨List.replicate 13064 97, m13⟩]).length = 11 := by
    simp only [filter_by_tokens, List.flatMap_cons, List.flatMap_nil, List.append_nil,
      List.length_append]
    rw [if_neg (by rw [hm37t]; norm_num [EMBEDDING_MODEL_TOKENS_LIMIT]),
      if_neg (by rw [hm13t]; norm_num [EMBEDDING_MODEL_TOKENS_LIMIT])]
    simp only [calculate_metadata_statistics, List.length_map,
      TokenSplitter.split_text, List.enum_length]
    rw [hstep, hts, byteTokenizer_tokenBytes, byteTokenizer_tokenBytes,
      List.map_replicate, List.map_replicate]
    rw [tokenWindows_len_37936, tokenWindows_len_13064]
  -- token-first: 10 windows, all of which then pass the byte filter
  have htokfirst_len : (filter_by_tokens byteTokenizer
      [⟨List.replicate 50000 97, m50⟩]).length = 10 := by
    simp only [filter_by_tokens, List.flatMap_cons, List.flatMap_nil, List.append_nil]
    rw [if_neg (by rw [hm50t]; norm_num [EMBEDDING_MODEL_TOKENS_LIMIT])]
    simp only [calculate_metadata_statistics, List.length_map,
      TokenSplitter.split_text, List.enum_length]
    rw [hstep, hts, byteTokenizer_tokenBytes, List.map_replicate]
    exact tokenWindows_len_50000
  have hval50 : ValidUtf8 (List.replicate 50000 (97 : Nat)) :=
    validUtf8_ascii (hAsc 50000)
  have hsmall : ∀ ch' ∈ filter_by_tokens byteTokenizer
      [(⟨List.replicate 50000 97, m50⟩ : FileChunk)],
      ch'.metadata.getNat NUM_BYTES_KEY ≤ S3_VECTOR_INDEX_METADATA_BYTES_LIMIT := by
    intro ch' hmem
    simp only [filter_by_tokens, List.flatMap_cons, List.flatMap_nil,
      List.append_nil] at hmem
    rw [if_neg (by rw [hm50t]; norm_num [EMBEDDING_MODEL_TOKENS_LIMIT])] at hmem
    obtain ⟨⟨hab, hat⟩, ⟨ch0, h0, hcont⟩⟩ := calc_stats_mem hmem
    rw [List.mem_map] at h0
    obtain ⟨sub, hsub, rfl⟩ := h0
    obtain ⟨i, hi⟩ := token_split_text_mem hsub
    rw [hab, count_bytes]
    simp only at hcont
    rw [hcont, hi, byteTokenizer_window_flatten]
    have hs2 := (pyDecodeReplace_slice hval50 i token_splitter_chunk_size).2
    have htk : (((List.replicate 50000 (97 : Nat)).drop i).take
        token_splitter_chunk_size).length ≤ token_splitter_chunk_size := by
      rw [List.length_take]; omega
    have hc3 : S3_VECTOR_INDEX_METADATA_BYTES_LIMIT = 40960 := by
      norm_num [S3_VECTOR_INDEX_METADATA_BYTES_LIMIT]
    omega
  have h10 : (filter_by_bytes byteTokenizer (filter_by_tokens byteTokenizer
      [(⟨List.replicate 50000 97, m50⟩ : FileChunk)])).length = 10 := by
    rw [filter_by_bytes_all_small hsmall, htokfirst_len]
  refine ⟨_, ?_, rfl, ?_, ?_, by norm_num⟩
  · rw [create_chunks, if_neg (by simp only [List.isEmpty_cons]; decide)]
  · rw [hcalc, hbytes, h11]
  · rw [hcalc, h10]

/-! ## PDF structural splitting (`pdf_splitter.py`) -/

/-- A text span of a PDF page: `span["text"]` and `span["size"]` (the font
size; PyMuPDF reports floats, modelled as rationals, which carry the same
ordering on the values compared here). -/
structure PdfSpan where
  text : String
  size : ℚ

/-- Python `str.strip()`: remove leading and trailing whitespace. -/
def pyStrip (s : String) : String :=
  ⟨((s.data.dropWhile Char.isWhitespace).reverse.dropWhile Char.isWhitespace).reverse⟩

/-- Python `"\n".join(current)`. -/
def joinNewline (current : List String) : String :=
  ⟨List.intercalate ['\n'] (current.map String.data)⟩

/-- The span loop of `PdfFileSplitter._extract_header_chunks` over the
flattened sequence of spans (pages, blocks, lines in order); `current` and
`chunks` are the loop accumulators.  When a span's size reaches the header
threshold and text has accumulated, the accumulation is flushed as a chunk
and the span starts (and is part of) the next one; every span's stripped
text is appended to the current accumulation; a trailing accumulation is
flushed at the end. -/
def extractHeaderChunksAux (min_header_font : ℚ) :
    List PdfSpan → List String → List String → List String
  | [], current, chunks =>
      if current ≠ [] then chunks ++ [joinNewline current] else chunks
  | span :: rest, current, chunks =>
      let text := pyStrip span.text
      if min_header_font ≤ span.size ∧ current ≠ [] then
        extractHeaderChunksAux min_header_font rest [text]
          (chunks ++ [joinNewline current])
      else
        extractHeaderChunksAux min_header_font rest (current ++ [text]) chunks

/-- `PdfFileSplitter._extract_header_chunks` (the default
`min_header_font` in the source is 14). -/
def extract_header_chunks (spans : List PdfSpan) (min_header_font : ℚ) :
    List String :=
  extractHeaderChunksAux min_header_font spans [] []

/-- C6: PDF structural splitting declares a chunk boundary exactly when a
span's font size reaches the threshold while accumulated text exists (the
accumulation is flushed and the header span starts — and is included in —
the next chunk); otherwise the span joins the current accumulation;
trailing text is flushed as a final chunk; and the span sequence
`[Header 16, Content 12, Header2 16]` with threshold 14 yields exactly the
2 chunks `["Header\nContent", "Header2"]`, the first ending before
`Header2`. -/
theorem C6_pdf_header_boundary (minF : ℚ) (span : PdfSpan)
    (rest : List PdfSpan) (current chunks : List String) :
    (minF ≤ span.size → current ≠ [] →
      extractHeaderChunksAux minF (span :: rest) current chunks =
        extractHeaderChunksAux minF rest [pyStrip span.text]
          (chunks ++ [joinNewline current])) ∧
    (¬ (minF ≤ span.size ∧ current ≠ []) →
      extractHeaderChunksAux minF (span :: rest) current chunks =
        extractHeaderChunksAux minF rest (current ++ [pyStrip span.text]) chunks) ∧
    (current ≠ [] →
      extractHeaderChunksAux minF [] current chunks =
        chunks ++ [joinNewline current]) ∧
    extract_header_chunks
      [⟨"Header", 16⟩, ⟨"Content", 12⟩, ⟨"Header2", 16⟩] 14 =
      ["Header\nContent", "Header2"] := by
  refine ⟨?_, ?_, ?_, ?_⟩
  · intro h1 h2
    rw [extractHeaderChunksAux, if_pos ⟨h1, h2⟩]
  · intro h1
    rw [extractHeaderChunksAux, if_neg h1]
  · intro h1
    rw [extractHeaderChunksAux, if_pos h1]
  · rw [extract_header_chunks,
      extractHeaderChunksAux, if_neg (by rintro ⟨-, h⟩; exact h rfl),
      extractHeaderChunksAux, if_neg (by rintro ⟨h, -⟩; norm_num at h),
      extractHeaderChunksAux, if_pos ⟨by norm_num, by simp⟩,
      extractHeaderChunksAux, if_pos (by simp)]
    rfl

theorem C6_pdf_header_boundary_witness :
    extract_header_chunks
      [⟨"Header", 16⟩, ⟨"Content", 12⟩, ⟨"Header2", 16⟩] 14 =
      ["Header\nContent", "Header2"] ∧
    extractHeaderChunksAux 14 [⟨"X", 15⟩] ["a"] [] =
      extractHeaderChunksAux 14 [] [pyStrip "X"] ([] ++ [joinNewline ["a"]]) :=
  ⟨(C6_pdf_header_boundary 14 ⟨"X", 15⟩ [] ["a"] []).2.2.2,
   (C6_pdf_header_boundary 14 ⟨"X", 15⟩ [] ["a"] []).1 (by norm_num) (by simp)⟩

/-! ## Batched embedding and upsert (`RagDriver.fill_rag`,
`abstract_vector_database.py`) -/

/-- `VectorItem`: key, embedding vector and metadata.
`create_from_file_chunk` copies the chunk metadata and adds the full
content under `content`; the collision-free `uuid4().hex` key is modelled
by a counter supplied by the ingestion loop. -/
structure VectorItem (V : Type) where
  key : Nat
  embedding_vector : V
  metadata : Meta

def VectorItem.create_from_file_chunk {V : Type} (key : Nat)
    (file_chunk : FileChunk) (chunk_embedding : V) : VectorItem V :=
  ⟨key, chunk_embedding,
    file_chunk.metadata.set "content" (MetaVal.bytes file_chunk.content)⟩

/-- The state of the upsert loop in `fill_rag`: the accumulating
`embedding_batch`, the sequence of `add_vectors` calls made so far (each
call's record list), and the key counter. -/
structure IngestState (V : Type) where
  batch : List (VectorItem V)
  calls : List (List (VectorItem V))
  next_key : Nat

/-- The body of `for chunk in chunk_list`: embed the chunk, append the
vector item to the batch, and flush (upsert) the batch once its size
reaches `BATCH_VECTOR_UPSERT_SIZE`. -/
def processChunk {V : Type} (embed : List Nat → V) (st : IngestState V)
    (chunk : FileChunk) : IngestState V :=
  let item := VectorItem.create_from_file_chunk st.next_key chunk (embed chunk.content)
  let batch := st.batch ++ [item]
  if BATCH_VECTOR_UPSERT_SIZE ≤ batch.length then
    ⟨[], st.calls ++ [batch], st.next_key + 1⟩
  else
    ⟨batch, st.calls, st.next_key + 1⟩

/-- The `while there_is_next_file_to_process` loop: take the next file's
chunk list (default `[]` when the generator is exhausted), stop when it is
empty, else process its chunks in order. -/
def fillRagLoop {V : Type} (embed : List Nat → V) :
    List (List FileChunk) → IngestState V → IngestState V
  | [], st => st
  | chunk_list :: rest, st =>
      if chunk_list.isEmpty then st
      else fillRagLoop embed rest (chunk_list.foldl (processChunk embed) st)

/-- Steps 2–3 of `fill_rag`: run the loop over the per-file chunk lists
and flush any remaining embeddings in the batch. -/
def fillRagIngest {V : Type} (embed : List Nat → V)
    (chunks_to_process : List (List FileChunk)) : IngestState V :=
  let st := fillRagLoop embed chunks_to_process ⟨[], [], 0⟩
  if st.batch.isEmpty then st else ⟨[], st.calls ++ [st.batch], st.next_key⟩

theorem fillRagLoop_eq_foldl {V : Type} (embed : List Nat → V) :
    ∀ (files : List (List FileChunk)), (∀ l ∈ files, l ≠ []) →
    ∀ st, fillRagLoop embed files st = files.flatten.foldl (processChunk embed) st := by
  intro files
  induction files with
  | nil => intro _ st; simp [fillRagLoop]
  | cons l rest ih =>
    intro hne st
    rw [fillRagLoop,
      if_neg (by simp [List.isEmpty_iff]; exact hne l (List.mem_cons_self l rest))]
    rw [ih (fun x hx => hne x (List.mem_cons_of_mem l hx)), List.flatten_cons,
      List.foldl_append]

/-- The loop invariant of the batch accumulator after `n` chunks. -/
def BatchInv {V : Type} (st : IngestState V) (n : Nat) : Prop :=
  st.calls.length = n / BATCH_VECTOR_UPSERT_SIZE ∧
  st.batch.length = n % BATCH_VECTOR_UPSERT_SIZE ∧
  (st.calls.map List.length).sum = n - n % BATCH_VECTOR_UPSERT_SIZE

theorem processChunk_inv {V : Type} (embed : List Nat → V) (st : IngestState V)
    (n : Nat) (chunk : FileChunk) (h : BatchInv st n) :
    BatchInv (processChunk embed st chunk) (n + 1) := by
  obtain ⟨h1, h2, h3⟩ := h
  have hB : BATCH_VECTOR_UPSERT_SIZE = 40 := rfl
  rw [hB] at h1 h2 h3
  simp only [processChunk, List.length_append, List.length_singleton]
  by_cases hb : BATCH_VECTOR_UPSERT_SIZE ≤ st.batch.length + 1
  · rw [if_pos hb]
    rw [hB] at hb
    refine ⟨?_, ?_, ?_⟩ <;>
      simp only [List.length_nil, List.length_append, List.map_append,
        List.map_cons, List.map_nil, List.sum_append, List.length_cons,
        List.sum_cons, List.sum_nil, hB] <;> omega
  · rw [if_neg hb]
    rw [hB] at hb
    refine ⟨?_, ?_, ?_⟩ <;>
      simp only [List.length_append, List.length_singleton, hB] <;> omega

theorem foldl_batch_inv {V : Type} (embed : List Nat → V) :
    ∀ (chunks : List FileChunk) (st : IngestState V) (n : Nat), BatchInv st n →
    BatchInv (chunks.foldl (processChunk embed) st) (n + chunks.length) := by
  intro chunks
  induction chunks with
  | nil => intro st n h; simpa using h
  | cons c rest ih =>
    intro st n h
    have h2 := ih (processChunk embed st c) (n + 1) (processChunk_inv embed st n c h)
    simp only [List.foldl_cons, List.length_cons]
    have : n + (rest.length + 1) = n + 1 + rest.length := by omega
    rw [this]
    exact h2

/-- C5: an ingestion run of `fill_rag` that embeds `K` chunks in total
(across all accepted files, each file yielding at least one chunk, as
`create_chunks` guarantees) makes exactly `⌈K / B⌉` calls to the vector
store's `add_vectors` with `B = BATCH_VECTOR_UPSERT_SIZE = 40`, the total
number of records across all calls is `K`, and the final partial batch is
flushed after input is exhausted (the final batch state is empty). -/
theorem C5_batched_upsert_exhaustive {V : Type} (embed : List Nat → V)
    (files : List (List FileChunk)) (hne : ∀ l ∈ files, l ≠ []) :
    (fillRagIngest embed files).calls.length =
      ((files.map List.length).sum + BATCH_VECTOR_UPSERT_SIZE - 1) /
        BATCH_VECTOR_UPSERT_SIZE ∧
    ((fillRagIngest embed files).calls.map List.length).sum =
      (files.map List.length).sum ∧
    (fillRagIngest embed files).batch = [] := by
  have hB : BATCH_VECTOR_UPSERT_SIZE = 40 := rfl
  have hK : files.flatten.length = (files.map List.length).sum :=
    List.length_flatten files
  have hinv0 : BatchInv (⟨[], [], 0⟩ : IngestState V) 0 := by
    refine ⟨by simp, by simp, by simp⟩
  have hinv := foldl_batch_inv embed files.flatten ⟨[], [], 0⟩ 0 hinv0
  rw [Nat.zero_add, hK] at hinv
  obtain ⟨h1, h2, h3⟩ := hinv
  rw [fillRagIngest]
  rw [fillRagLoop_eq_foldl embed files hne]
  set st := files.flatten.foldl (processChunk embed) (⟨[], [], 0⟩ : IngestState V)
    with hst
  set K := (files.map List.length).sum with hKdef
  rw [hB] at h1 h2 h3 ⊢
  by_cases hb : st.batch.isEmpty
  · rw [if_pos hb]
    have hb0 : st.batch = [] := List.isEmpty_iff.mp hb
    have hlen0 : K % 40 = 0 := by rw [← h2, hb0]; rfl
    refine ⟨by omega, by omega, hb0⟩
  · rw [if_neg hb]
    have hbne : st.batch ≠ [] := fun h0 => hb (by rw [h0]; rfl)
    have hlen1 : 0 < K % 40 := by
      rcases Nat.eq_zero_or_pos (K % 40) with h0 | h0
      · exact absurd (List.eq_nil_of_length_eq_zero (by omega)) hbne
      · exact h0
    refine ⟨?_, ?_, rfl⟩
    · simp only [List.length_append, List.length_singleton]
      omega
    · simp only [List.map_append, List.map_cons, List.map_nil, List.sum_append,
        List.sum_cons, List.sum_nil]
      omega

theorem C5_batched_upsert_exhaustive_witness :
    (fillRagIngest (V := Nat) (fun _ => 0)
      [[⟨[97], []⟩], [⟨[98], []⟩, ⟨[99], []⟩]]).calls.length =
        ((([[⟨[97], []⟩], [⟨[98], []⟩, ⟨[99], []⟩]] :
          List (List FileChunk)).map List.length).sum +
          BATCH_VECTOR_UPSERT_SIZE - 1) / BATCH_VECTOR_UPSERT_SIZE ∧
    ((fillRagIngest (V := Nat) (fun _ => 0)
      [[⟨[97], []⟩], [⟨[98], []⟩, ⟨[99], []⟩]]).calls.map List.length).sum =
        (([[⟨[97], []⟩], [⟨[98], []⟩, ⟨[99], []⟩]] :
          List (List FileChunk)).map List.length).sum ∧
    (fillRagIngest (V := Nat) (fun _ => 0)
      [[⟨[97], []⟩], [⟨[98], []⟩, ⟨[99], []⟩]]).batch = [] :=
  C5_batched_upsert_exhaustive (fun _ => 0)
    [[⟨[97], []⟩], [⟨[98], []⟩, ⟨[99], []⟩]]
    (by
      intro l hl
      simp only [List.mem_cons, List.mem_singleton] at hl
      rcases hl with rfl | rfl | hl
      · simp
      · simp
      · simp at hl)

/-! ## Metadata aliasing: heap model of `deepcopy` in the filter passes -/

/-- A chunk whose metadata field is a reference into a heap of metadata
maps (modelling Python object identity). -/
structure FileChunkR where
  content : List Nat
  metaRef : Nat
deriving DecidableEq, Repr

/-- Dereference: the metadata map stored at address `r`. -/
def heapGet (heap : List Meta) (r : Nat) : Meta := heap.getD r []

/-- In-place mutation `heap[r][key] = v` (adding or changing a key of one
chunk's metadata map). -/
def heapSet (heap : List Meta) (r : Nat) (k : String) (v : MetaVal) : List Meta :=
  heap.set r ((heapGet heap r).set k v)

theorem heapGet_heapSet_ne (heap : List Meta) (r r' : Nat) (k : String)
    (v : MetaVal) (h : r ≠ r') :
    heapGet (heapSet heap r k v) r' = heapGet heap r' := by
  simp only [heapGet, heapSet, List.getD_eq_getElem?_getD]
  rw [List.getElem?_set_ne h]

/-- `_calculate_metadata_statistics` in the heap model: write the two
statistics into each chunk's metadata map, in place. -/
def calcStatsR (tok : Tokenizer) (heap : List Meta) (chunks : List FileChunkR) :
    List Meta :=
  chunks.foldl
    (fun h ch =>
      heapSet (heapSet h ch.metaRef NUM_TOKENS_KEY
          (MetaVal.nat (count_tokens tok ch.content)))
        ch.metaRef NUM_BYTES_KEY (MetaVal.nat (count_bytes ch.content)))
    heap

/-- The oversized branch shared by `_filter_by_bytes` and
`_filter_by_tokens` in the heap model: each sub-chunk receives a fresh
address holding a `deepcopy` of the parent's metadata map (fresh
allocation of the copied value), and the statistics of the new chunks are
then recomputed in place. -/
def splitOversizedR (tok : Tokenizer) (heap : List Meta) (parent : FileChunkR)
    (sub_chunks : List TextChunk) : List Meta × List FileChunkR :=
  let new_file_chunks := sub_chunks.enum.map
    (fun ic => FileChunkR.mk ic.2.content (heap.length + ic.1))
  let heap1 := heap ++ sub_chunks.map (fun _ => heapGet heap parent.metaRef)
  (calcStatsR tok heap1 new_file_chunks, new_file_chunks)

/-- `_filter_by_bytes` in the heap model. -/
def filter_by_bytes_R (tok : Tokenizer) (heap : List Meta) :
    List FileChunkR → List Meta × List FileChunkR
  | [] => (heap, [])
  | chunk :: rest =>
      if (heapGet heap chunk.metaRef).getNat NUM_BYTES_KEY ≤
          S3_VECTOR_INDEX_METADATA_BYTES_LIMIT then
        let hr := filter_by_bytes_R tok heap rest
        (hr.1, chunk :: hr.2)
      else
        let hs := splitOversizedR tok heap chunk
          (BytesSplitter.split_text bytes_splitter_chunk_size splitter_chunk_overlap
            chunk.content)
        let hr := filter_by_bytes_R tok hs.1 rest
        (hr.1, hs.2 ++ hr.2)

/-- `_filter_by_tokens` in the heap model. -/
def filter_by_tokens_R (tok : Tokenizer) (heap : List Meta) :
    List FileChunkR → List Meta × List FileChunkR
  | [] => (heap, [])
  | chunk :: rest =>
      if (heapGet heap chunk.metaRef).getNat NUM_TOKENS_KEY ≤
          EMBEDDING_MODEL_TOKENS_LIMIT then
        let hr := filter_by_tokens_R tok heap rest
        (hr.1, chunk :: hr.2)
      else
        let hs := splitOversizedR tok heap chunk
          (TokenSplitter.split_text tok token_splitter_chunk_size
            splitter_chunk_overlap chunk.content)
        let hr := filter_by_tokens_R tok hs.1 rest
        (hr.1, hs.2 ++ hr.2)

theorem splitOversizedR_refs (tok : Tokenizer) (heap : List Meta)
    (parent : FileChunkR) (sub_chunks : List TextChunk) (i : Nat)
    (hi : i < (splitOversizedR tok heap parent sub_chunks).2.length) :
    ((splitOversizedR tok heap parent sub_chunks).2.get ⟨i, hi⟩).metaRef =
      heap.length + i := by
  simp only [splitOversizedR] at hi ⊢
  rw [List.get_eq_getElem]
  simp only [List.getElem_map, List.getElem_enum]

theorem filter_by_bytes_R_oversized (tok : Tokenizer) (heap : List Meta)
    (chunk : FileChunkR)
    (hb : ¬ (heapGet heap chunk.metaRef).getNat NUM_BYTES_KEY ≤
      S3_VECTOR_INDEX_METADATA_BYTES_LIMIT) :
    (filter_by_bytes_R tok heap [chunk]).2 =
      (splitOversizedR tok heap chunk
        (BytesSplitter.split_text bytes_splitter_chunk_size splitter_chunk_overlap
          chunk.content)).2 := by
  rw [filter_by_bytes_R, if_neg hb]
  simp [filter_by_bytes_R]

theorem filter_by_tokens_R_oversized (tok : Tokenizer) (heap : List Meta)
    (chunk : FileChunkR)
    (ht : ¬ (heapGet heap chunk.metaRef).getNat NUM_TOKENS_KEY ≤
      EMBEDDING_MODEL_TOKENS_LIMIT) :
    (filter_by_tokens_R tok heap [chunk]).2 =
      (splitOversizedR tok heap chunk
        (TokenSplitter.split_text tok token_splitter_chunk_size
          splitter_chunk_overlap chunk.content)).2 := by
  rw [filter_by_tokens_R, if_neg ht]
  simp [filter_by_tokens_R]

/-- C7: when the byte-filter or token-filter pass splits an oversized
chunk, each sub-chunk holds its own freshly allocated copy of the parent's
metadata map: sibling sub-chunks have pairwise distinct metadata
references, so adding or changing a key in one sibling's map (on any heap)
leaves every other sibling's map unchanged. -/
theorem C7_metadata_copy_isolation (tok : Tokenizer) (heap : List Meta)
    (chunk : FileChunkR)
    (hb : ¬ (heapGet heap chunk.metaRef).getNat NUM_BYTES_KEY ≤
      S3_VECTOR_INDEX_METADATA_BYTES_LIMIT)
    (ht : ¬ (heapGet heap chunk.metaRef).getNat NUM_TOKENS_KEY ≤
      EMBEDDING_MODEL_TOKENS_LIMIT) :
    (∀ i j (hi : i < (filter_by_bytes_R tok heap [chunk]).2.length)
        (hj : j < (filter_by_bytes_R tok heap [chunk]).2.length), i ≠ j →
      (((filter_by_bytes_R tok heap [chunk]).2.get ⟨i, hi⟩).metaRef ≠
        ((filter_by_bytes_R tok heap [chunk]).2.get ⟨j, hj⟩).metaRef) ∧
      ∀ (h2 : List Meta) (k : String) (v : MetaVal),
        heapGet (heapSet h2 (((filter_by_bytes_R tok heap [chunk]).2.get
            ⟨i, hi⟩).metaRef) k v)
          (((filter_by_bytes_R tok heap [chunk]).2.get ⟨j, hj⟩).metaRef) =
          heapGet h2 (((filter_by_bytes_R tok heap [chunk]).2.get ⟨j, hj⟩).metaRef)) ∧
    (∀ i j (hi : i < (filter_by_tokens_R tok heap [chunk]).2.length)
        (hj : j < (filter_by_tokens_R tok heap [chunk]).2.length), i ≠ j →
      (((filter_by_tokens_R tok heap [chunk]).2.get ⟨i, hi⟩).metaRef ≠
        ((filter_by_tokens_R tok heap [chunk]).2.get ⟨j, hj⟩).metaRef) ∧
      ∀ (h2 : List Meta) (k : String) (v : MetaVal),
        heapGet (heapSet h2 (((filter_by_tokens_R tok heap [chunk]).2.get
            ⟨i, hi⟩).metaRef) k v)
          (((filter_by_tokens_R tok heap [chunk]).2.get ⟨j, hj⟩).metaRef) =
          heapGet h2 (((filter_by_tokens_R tok heap [chunk]).2.get
            ⟨j, hj⟩).metaRef)) := by
  constructor
  · intro i j hi hj hij
    revert hi hj
    rw [filter_by_bytes_R_oversized tok heap chunk hb]
    intro hi hj
    rw [splitOversizedR_refs tok heap chunk _ i hi,
      splitOversizedR_refs tok heap chunk _ j hj]
    exact ⟨by omega, fun h2 k v => heapGet_heapSet_ne h2 _ _ k v (by omega)⟩
  · intro i j hi hj hij
    revert hi hj
    rw [filter_by_tokens_R_oversized tok heap chunk ht]
    intro hi hj
    rw [splitOversizedR_refs tok heap chunk _ i hi,
      splitOversizedR_refs tok heap chunk _ j hj]
    exact ⟨by omega, fun h2 k v => heapGet_heapSet_ne h2 _ _ k v (by omega)⟩

theorem C7_metadata_copy_isolation_witness :
    (¬ (heapGet [[(NUM_BYTES_KEY, MetaVal.nat 41000),
        (NUM_TOKENS_KEY, MetaVal.nat 41000)]]
        (FileChunkR.mk (List.replicate 41000 97) 0).metaRef).getNat NUM_BYTES_KEY ≤
      S3_VECTOR_INDEX_METADATA_BYTES_LIMIT) ∧
    (¬ (heapGet [[(NUM_BYTES_KEY, MetaVal.nat 41000),
        (NUM_TOKENS_KEY, MetaVal.nat 41000)]]
        (FileChunkR.mk (List.replicate 41000 97) 0).metaRef).getNat NUM_TOKENS_KEY ≤
      EMBEDDING_MODEL_TOKENS_LIMIT) ∧
    ((∀ i j (hi : i < (filter_by_bytes_R byteTokenizer
          [[(NUM_BYTES_KEY, MetaVal.nat 41000), (NUM_TOKENS_KEY, MetaVal.nat 41000)]]
          [FileChunkR.mk (List.replicate 41000 97) 0]).2.length)
        (hj : j < (filter_by_bytes_R byteTokenizer
          [[(NUM_BYTES_KEY, MetaVal.nat 41000), (NUM_TOKENS_KEY, MetaVal.nat 41000)]]
          [FileChunkR.mk (List.replicate 41000 97) 0]).2.length), i ≠ j →
      (((filter_by_bytes_R byteTokenizer
          [[(NUM_BYTES_KEY, MetaVal.nat 41000), (NUM_TOKENS_KEY, MetaVal.nat 41000)]]
          [FileChunkR.mk (List.replicate 41000 97) 0]).2.get ⟨i, hi⟩).metaRef ≠
        ((filter_by_bytes_R byteTokenizer
          [[(NUM_BYTES_KEY, MetaVal.nat 41000), (NUM_TOKENS_KEY, MetaVal.nat 41000)]]
          [FileChunkR.mk (List.replicate 41000 97) 0]).2.get ⟨j, hj⟩).metaRef) ∧
      ∀ (h2 : List Meta) (k : String) (v : MetaVal),
        heapGet (heapSet h2 (((filter_by_bytes_R byteTokenizer
            [[(NUM_BYTES_KEY, MetaVal.nat 41000), (NUM_TOKENS_KEY, MetaVal.nat 41000)]]
            [FileChunkR.mk (List.replicate 41000 97) 0]).2.get ⟨i, hi⟩).metaRef) k v)
          (((filter_by_bytes_R byteTokenizer
            [[(NUM_BYTES_KEY, MetaVal.nat 41000), (NUM_TOKENS_KEY, MetaVal.nat 41000)]]
            [FileChunkR.mk (List.replicate 41000 97) 0]).2.get ⟨j, hj⟩).metaRef) =
          heapGet h2 (((filter_by_bytes_R byteTokenizer
            [[(NUM_BYTES_KEY, MetaVal.nat 41000), (NUM_TOKENS_KEY, MetaVal.nat 41000)]]
            [FileChunkR.mk (List.replicate 41000 97) 0]).2.get ⟨j, hj⟩).metaRef)) ∧
    (∀ i j (hi : i < (filter_by_tokens_R byteTokenizer
          [[(NUM_BYTES_KEY, MetaVal.nat 41000), (NUM_TOKENS_KEY, MetaVal.nat 41000)]]
          [FileChunkR.mk (List.replicate 41000 97) 0]).2.length)
        (hj : j < (filter_by_tokens_R byteTokenizer
          [[(NUM_BYTES_KEY, MetaVal.nat 41000), (NUM_TOKENS_KEY, MetaVal.nat 41000)]]
          [FileChunkR.mk (List.replicate 41000 97) 0]).2.length), i ≠ j →
      (((filter_by_tokens_R byteTokenizer
          [[(NUM_BYTES_KEY, MetaVal.nat 41000), (NUM_TOKENS_KEY, MetaVal.nat 41000)]]
          [FileChunkR.mk (List.replicate 41000 97) 0]).2.get ⟨i, hi⟩).metaRef ≠
        ((filter_by_tokens_R byteTokenizer
          [[(NUM_BYTES_KEY, MetaVal.nat 41000), (NUM_TOKENS_KEY, MetaVal.nat 41000)]]
          [FileChunkR.mk (List.replicate 41000 97) 0]).2.get ⟨j, hj⟩).metaRef) ∧
      ∀ (h2 : List Meta) (k : String) (v : MetaVal),
        heapGet (heapSet h2 (((filter_by_tokens_R byteTokenizer
            [[(NUM_BYTES_KEY, MetaVal.nat 41000), (NUM_TOKENS_KEY, MetaVal.nat 41000)]]
            [FileChunkR.mk (List.replicate 41000 97) 0]).2.get ⟨i, hi⟩).metaRef) k v)
          (((filter_by_tokens_R byteTokenizer
            [[(NUM_BYTES_KEY, MetaVal.nat 41000), (NUM_TOKENS_KEY, MetaVal.nat 41000)]]
            [FileChunkR.mk (List.replicate 41000 97) 0]).2.get ⟨j, hj⟩).metaRef) =
          heapGet h2 (((filter_by_tokens_R byteTokenizer
            [[(NUM_BYTES_KEY, MetaVal.nat 41000), (NUM_TOKENS_KEY, MetaVal.nat 41000)]]
            [FileChunkR.mk (List.replicate 41000 97) 0]).2.get ⟨j, hj⟩).metaRef))) :=
  ⟨by decide, by decide,
    C7_metadata_copy_isolation byteTokenizer
      [[(NUM_BYTES_KEY, MetaVal.nat 41000), (NUM_TOKENS_KEY, MetaVal.nat 41000)]]
      (FileChunkR.mk (List.replicate 41000 97) 0) (by decide) (by decide)⟩

/-! ## File-type detection and routing (`RagDriver`, `ChunkSplitterFactory`) -/

/-- Python `s.split('.')` on the characters of a path (always non-empty;
a dot-less string yields the single segment `[s]`). -/
def splitOnDot : List Char → List (List Char)
  | [] => [[]]
  | c :: rest =>
      let r := splitOnDot rest
      if c = '.' then [] :: r
      else
        match r with
        | s :: ss => (c :: s) :: ss
        | [] => [[c]]

/-- Python `str.lower()`. -/
def pyLower (s : List Char) : List Char := s.map Char.toLower

/-- Python `str.rstrip()`: drop trailing whitespace. -/
def pyRstrip (s : List Char) : List Char :=
  (s.reverse.dropWhile Char.isWhitespace).reverse

/-- `RagDriver._determine_file_type`:
`file_path.split('.')[-1].lower().rstrip()`. -/
def determine_file_type (file_path : List Char) : List Char :=
  pyRstrip (pyLower ((splitOnDot file_path).getLastD []))

/-- The allow-list of `fill_rag`. -/
def allowed_file_types : List (List Char) := ["pdf".data, "md".data]

/-- `RagDriver._filter_files_by_type`: append the path when its type is
allowed; otherwise log a warning and skip it (no error is raised). -/
def filter_files_by_type (file_path : List Char)
    (file_to_process : List (List Char)) : List (List Char) :=
  if determine_file_type file_path ∈ allowed_file_types then
    file_to_process ++ [file_path]
  else
    file_to_process

/-- The splitter selected by `ChunkSplitterFactory`. -/
inductive SplitterKind where
  | pdf
  | md
deriving DecidableEq, Repr

/-- `ChunkSplitterFactory.create_based_on_file_type`. -/
def create_based_on_file_type (path_to_file : List Char) :
    Except String SplitterKind :=
  let file_type := (splitOnDot path_to_file).getLastD []
  if pyRstrip (pyLower file_type) = "pdf".data then Except.ok SplitterKind.pdf
  else if pyRstrip (pyLower file_type) = "md".data then Except.ok SplitterKind.md
  else Except.error "Unsupported file type"

theorem splitOnDot_ne_nil (p : List Char) : splitOnDot p ≠ [] := by
  induction p with
  | nil => simp [splitOnDot]
  | cons c rest ih =>
    rw [splitOnDot]
    by_cases hc : c = '.'
    · simp [hc]
    · simp only [hc, if_false]
      match hr : splitOnDot rest with
      | s :: ss => simp
      | [] => exact absurd hr ih

theorem splitOnDot_no_dot (p : List Char) (h : '.' ∉ p) : splitOnDot p = [p] := by
  induction p with
  | nil => rfl
  | cons c rest ih =>
    have hc : ¬ c = '.' := fun hcc => h (hcc ▸ List.mem_cons_self c rest)
    have hr : splitOnDot rest = [rest] :=
      ih (fun hx => h (List.mem_cons_of_mem c hx))
    rw [splitOnDot]
    simp only [hc, if_false, hr]

/-- C10: file-type detection takes everything after the last `.`, so for a
dot-less path the entire lowercased, right-stripped path is used as the
extension; a dot-less path whose lowercased right-stripped form is
`pdf` or `md` is accepted by discovery and routed to the corresponding
splitter, and every other dot-less path is skipped (appended nowhere,
without an error) rather than rejected for lacking an extension. -/
theorem C10_dotless_path_uses_whole_name (p : List Char) (hnodot : '.' ∉ p) :
    determine_file_type p = pyRstrip (pyLower p) ∧
    (pyRstrip (pyLower p) ∉ allowed_file_types →
      ∀ acc, filter_files_by_type p acc = acc) ∧
    (pyRstrip (pyLower p) = "pdf".data →
      (∀ acc, filter_files_by_type p acc = acc ++ [p]) ∧
      create_based_on_file_type p = Except.ok SplitterKind.pdf) ∧
    (pyRstrip (pyLower p) = "md".data →
      (∀ acc, filter_files_by_type p acc = acc ++ [p]) ∧
      create_based_on_file_type p = Except.ok SplitterKind.md) := by
  have hdet : determine_file_type p = pyRstrip (pyLower p) := by
    rw [determine_file_type, splitOnDot_no_dot p hnodot]
    rfl
  refine ⟨hdet, ?_, ?_, ?_⟩
  · intro hnot acc
    rw [filter_files_by_type, if_neg (by rw [hdet]; exact hnot)]
  · intro hpdf
    constructor
    · intro acc
      rw [filter_files_by_type, if_pos (by rw [hdet, hpdf]; simp [allowed_file_types])]
    · rw [create_based_on_file_type]
      have hlast : ([p] : List (List Char)).getLastD [] = p := rfl
      simp only [splitOnDot_no_dot p hnodot, hlast]
      rw [if_pos hpdf]
  · intro hmd
    constructor
    · intro acc
      rw [filter_files_by_type, if_pos (by rw [hdet, hmd]; simp [allowed_file_types])]
    · rw [create_based_on_file_type]
      have hlast : ([p] : List (List Char)).getLastD [] = p := rfl
      simp only [splitOnDot_no_dot p hnodot, hlast]
      have hne : ¬ pyRstrip (pyLower p) = "pdf".data := by
        rw [hmd]
        decide
      rw [if_neg hne, if_pos hmd]

theorem C10_dotless_path_uses_whole_name_witness :
    determine_file_type "pdf".data = pyRstrip (pyLower "pdf".data) ∧
    (pyRstrip (pyLower "pdf".data) ∉ allowed_file_types →
      ∀ acc, filter_files_by_type "pdf".data acc = acc) ∧
    (pyRstrip (pyLower "pdf".data) = "pdf".data →
      (∀ acc, filter_files_by_type "pdf".data acc = acc ++ ["pdf".data]) ∧
      create_based_on_file_type "pdf".data = Except.ok SplitterKind.pdf) ∧
    (pyRstrip (pyLower "pdf".data) = "md".data →
      (∀ acc, filter_files_by_type "pdf".data acc = acc ++ ["pdf".data]) ∧
      create_based_on_file_type "pdf".data = Except.ok SplitterKind.md) :=
  C10_dotless_path_uses_whole_name "pdf".data (by decide)
